import Mathlib

/-!
Verification of the materials-workspace resolver and lifecycle manager of the
skill-forge repository (`scripts/cleanup_materials.py`, `scripts/fetch_source.py`)
and of its packaging filter (`scripts/package_skill.py`).

The filesystem is modelled as a finite tree of named nodes; an absolute path is
the list of its components below the filesystem root (`[]` is the root `/`).
Every Python function relevant to the claims is translated into an executable
Lean definition over this model; destructive operations are modelled by
explicit state passing (a `World` in, a `World` out).  All definitions are
structurally recursive so that concrete runs evaluate by `decide`.
-/

/-- An absolute path, as the list of its components below the filesystem root.
`[]` is the filesystem root itself; the parent of a path is `dropLast`. -/
abbrev FPath := List String

mutual

/-- A filesystem node: a regular file with a byte size, a directory with a
readability flag (`readable = false` makes `os.scandir` raise
`PermissionError`) and named children, or a symbolic link carrying the node it
points at.  The walks under verification never follow a symlink
(`follow_symlinks=False` in `get_dir_size`); a symlinked entry is treated as a
non-directory throughout. -/
inductive FNode where
  | file (size : Nat)
  | dir (readable : Bool) (children : FChildren)
  | symlink (target : FNode)
deriving Repr

/-- The children of a directory, as an association list of names to nodes
(a separate mutual type so that all recursions stay structural). -/
inductive FChildren where
  | nil
  | cons (name : String) (node : FNode) (rest : FChildren)
deriving Repr

end

/-- The children of a directory as a plain list of (name, node) pairs. -/
def childrenToList : FChildren → List (String × FNode)
  | .nil => []
  | .cons n c rest => (n, c) :: childrenToList rest

/-- Look up a name among a directory's children (first match). -/
def lookupChild : FChildren → String → Option FNode
  | .nil, _ => none
  | .cons n c rest, name => if n = name then some c else lookupChild rest name

/-- Resolve a path inside a tree, component by component. -/
def lookupPath : FNode → FPath → Option FNode
  | t, [] => some t
  | FNode.dir _ cs, name :: rest =>
    match lookupChild cs name with
    | some c => lookupPath c rest
    | none => none
  | _, _ :: _ => none

/-- `Path.exists()` of the Python `pathlib` API over the tree model. -/
def pathExists (t : FNode) (p : FPath) : Bool :=
  (lookupPath t p).isSome

/-- `p` is `q` itself or an ancestor directory of `q` (an initial segment of
its component list). -/
def isAncestorOrSelf : FPath → FPath → Bool
  | [], _ => true
  | _ :: _, [] => false
  | a :: as, b :: bs => if a = b then isAncestorOrSelf as bs else false

/-- Strict lexicographic order on character lists, by code point — how Python
compares the strings that `sorted()` receives. -/
def strLtAux : List Char → List Char → Bool
  | [], [] => false
  | [], _ :: _ => true
  | _ :: _, [] => false
  | a :: as, b :: bs =>
    if a.val < b.val then true
    else if b.val < a.val then false
    else strLtAux as bs

/-- Python's `<` on strings (lexicographic by code point). -/
def strLt (a b : String) : Bool := strLtAux a.data b.data

/-- `name.startswith('.')` — the hidden-entry test of `list_materials`. -/
def startsWithDot (s : String) : Bool :=
  match s.data with
  | [] => false
  | c :: _ => c = '.'

/-- `a` ends with the suffix `sfx` (`str.endswith` of Python), decided on the
reversed character lists. -/
def strEndsWith (a sfx : String) : Bool :=
  go sfx.data.reverse a.data.reverse
where
  go : List Char → List Char → Bool
  | [], _ => true
  | _ :: _, [] => false
  | c :: cr, d :: dr => if c = d then go cr dr else false

/-- The ambient state a script invocation sees: the filesystem tree, the
current working directory (`Path.cwd()`), the user's home directory
(`Path.home()`), the tool's installation directory
(`Path(__file__).parent.parent` in `fetch_source.py`), and an abstract
failure oracle for `shutil.rmtree` covering permission errors and any other
`Exception` the scripts catch around removals. -/
structure World where
  root : FNode
  cwd : FPath
  home : FPath
  installDir : FPath
  rmtreeFails : FPath → Bool

/-- `(current / '.git').exists() or (current / '.claude').exists()` — the
boundary-marker test shared by both `find_project_root` implementations. -/
def hasMarker (t : FNode) (p : FPath) : Bool :=
  pathExists t (p ++ [".git"]) || pathExists t (p ++ [".claude"])

/-- The `while current != current.parent` loop of
`cleanup_materials.find_project_root` (lines 49-55).  Each iteration moves to
the parent (one component shorter), and the guard fails exactly at the
filesystem root, so the loop runs at most `p.length` times; the explicit fuel
is that bound and never runs out before the guard fails. -/
def find_project_root_loop (t : FNode) : Nat → FPath → Option FPath
  | 0, _ => none
  | _ + 1, [] => none
  | fuel + 1, p =>
    if hasMarker t p then some p
    else find_project_root_loop t fuel p.dropLast

/-- `cleanup_materials.find_project_root(start_path=None)` (lines 31-55): walk
upward from `start_path` (default: the current working directory) and return
the first directory containing a `.git` or `.claude` marker, or `None`.  This
version has no special case for the tool's own installation directory. -/
def find_project_root (w : World) (start : Option FPath) : Option FPath :=
  find_project_root_loop w.root (start.getD w.cwd).length (start.getD w.cwd)

/-- Last path component (`Path.name`; `""` for the filesystem root). -/
def baseName : FPath → String
  | [] => ""
  | [x] => x
  | _ :: rest => baseName rest

/-- `fetch_source.py` lines 80-81: the installation directory is special-cased
only when it holds a `SKILL.md` and is literally named `skill-forge`. -/
def isSkillForgeDir (w : World) : Bool :=
  pathExists w.root (w.installDir ++ ["SKILL.md"]) && baseName w.installDir = "skill-forge"

/-- The upward-walk loop of `fetch_source.find_project_root` (lines 83-94): as
the cleanup version, except that when the matching directory is the tool's own
installation directory `sd` (and the skill-forge test `isSF` passed), the walk
continues from its parent instead of stopping there. -/
def fetch_find_project_root_loop (t : FNode) (isSF : Bool) (sd : FPath) :
    Nat → FPath → Option FPath
  | 0, _ => none
  | _ + 1, [] => none
  | fuel + 1, p =>
    if hasMarker t p then
      if isSF ∧ p = sd then fetch_find_project_root_loop t isSF sd fuel p.dropLast
      else some p
    else fetch_find_project_root_loop t isSF sd fuel p.dropLast

/-- `fetch_source.find_project_root(start_path=None)` (lines 60-94). -/
def fetch_find_project_root (w : World) (start : Option FPath) : Option FPath :=
  fetch_find_project_root_loop w.root (isSkillForgeDir w) w.installDir
    (start.getD w.cwd).length (start.getD w.cwd)

/-- The chain of directories the upward walk visits: the starting directory,
then each parent in turn, up to but not including the filesystem root (the
loop guard `current != current.parent` excludes the root itself). -/
def ancestorChain_loop : Nat → FPath → List FPath
  | 0, _ => []
  | _ + 1, [] => []
  | fuel + 1, p => p :: ancestorChain_loop fuel p.dropLast

/-- The directories visited by an upward boundary search from `p`. -/
def ancestorChain (p : FPath) : List FPath :=
  ancestorChain_loop p.length p

/-- `<project root>/.claude/temp-materials` — the `Project`-mode materials
root (`cleanup_materials.py` line 70). -/
def projectMaterialsPath (pr : FPath) : FPath := pr ++ [".claude", "temp-materials"]

/-- `~/skill-materials` — the `Global`-mode materials root (line 75). -/
def globalMaterialsPath (w : World) : FPath := w.home ++ ["skill-materials"]

/-- The project-mode contribution to `get_materials_dirs` (lines 67-72): a
single root, present only when a project boundary was found and the directory
exists on disk. -/
def projRootList (w : World) : List (FPath × String) :=
  match find_project_root w none with
  | some pr =>
    if pathExists w.root (projectMaterialsPath pr) then [(projectMaterialsPath pr, "project")]
    else []
  | none => []

/-- The global-mode contribution to `get_materials_dirs` (lines 74-77). -/
def globRootList (w : World) : List (FPath × String) :=
  if pathExists w.root (globalMaterialsPath w) then [(globalMaterialsPath w, "global")]
  else []

/-- `cleanup_materials.get_materials_dirs()` (lines 58-79): the ordered list
of existing materials roots, project mode first, each tagged with its mode
name; a purely read-only query (it creates nothing). -/
def get_materials_dirs (w : World) : List (FPath × String) :=
  projRootList w ++ globRootList w

/-- `cleanup_materials.get_materials_dir()` (lines 82-93): the first existing
root, or — when none exists — the smart default (project path if a boundary
was found, else the global path). -/
def get_materials_dir (w : World) : FPath :=
  match get_materials_dirs w with
  | (p, _) :: _ => p
  | [] =>
    match find_project_root w none with
    | some pr => projectMaterialsPath pr
    | none => globalMaterialsPath w

/-- The loop body of `get_dir_size` (lines 96-107) over a child list: files
contribute their size, directories recurse, symlinked entries fail both
`is_file(follow_symlinks=False)` and `is_dir(follow_symlinks=False)` and
contribute nothing.  An unreadable directory's `os.scandir` raises
`PermissionError` before anything accumulates, which the function catches,
returning the partial total `0` for that subtree. -/
def sizeChildren : FChildren → Nat
  | .nil => 0
  | .cons _ (.file sz) rest => sz + sizeChildren rest
  | .cons _ (.symlink _) rest => sizeChildren rest
  | .cons _ (.dir false _) rest => sizeChildren rest
  | .cons _ (.dir true cs) rest => sizeChildren cs + sizeChildren rest

/-- `cleanup_materials.get_dir_size(path)` on the node at `path`. -/
def get_dir_size : FNode → Nat
  | .dir true cs => sizeChildren cs
  | _ => 0

/-- `get_dir_size` applied to a path (0 on the impossible missing-path case;
the scripts only call it on paths they just checked to exist). -/
def sizeAt (w : World) (p : FPath) : Nat :=
  match lookupPath w.root p with
  | some n => get_dir_size n
  | none => 0

/-- `item.is_dir()` for a listed entry (symlinked entries are modelled as
non-directories; see `FNode`). -/
def isDirNode : FNode → Bool
  | .dir _ _ => true
  | _ => false

/-- One row of the inventory built by `list_materials` (name, absolute path,
recursive size, and the mode tag of the root it came from). -/
structure Material where
  name : String
  path : FPath
  size : Nat
  mode : String
deriving Repr, DecidableEq

/-- The name-order relation used to model `sorted(materials_dir.iterdir())`:
within one directory, Python compares the path strings, which is lexicographic
code-point order on the names. -/
def nameLe (x y : String × FNode) : Prop := strLt y.1 x.1 = false

instance : DecidableRel nameLe := fun x y => Bool.decEq (strLt y.1 x.1) false

/-- `sorted(materials_dir.iterdir())` — the children in name order. -/
def sortedEntries (cs : FChildren) : List (String × FNode) :=
  List.insertionSort nameLe (childrenToList cs)

/-- The rows `list_materials` produces for one root (lines 134-144): the
immediate subdirectories in name order, skipping entries whose name starts
with `'.'`, each sized by `get_dir_size` and tagged with the root's mode. -/
def entriesOfRoot (w : World) (d : FPath × String) : List Material :=
  match lookupPath w.root d.1 with
  | some (.dir _ cs) =>
    (sortedEntries cs).filterMap fun nc =>
      if isDirNode nc.2 && !startsWithDot nc.1 then
        some ⟨nc.1, d.1 ++ [nc.1], get_dir_size nc.2, d.2⟩
      else none
  | _ => []

/-- `cleanup_materials.list_materials()` (lines 119-146): the flat inventory
across all existing roots, root order first, name order within a root. -/
def list_materials (w : World) : List Material :=
  (get_materials_dirs w).flatMap (entriesOfRoot w)

/-- Remove the first child with the given name. -/
def removeChild (name : String) : FChildren → FChildren
  | .nil => .nil
  | .cons n c rest => if n = name then rest else .cons n c (removeChild name rest)

/-- Apply `f` to every child with the given name, keep the rest. -/
def mapAt (f : FNode → FNode) (name : String) : FChildren → FChildren
  | .nil => .nil
  | .cons n c rest =>
    if n = name then .cons n (f c) (mapAt f name rest)
    else .cons n c (mapAt f name rest)

/-- Remove the node at a path from a tree (identity when the path is missing
or is the filesystem root). -/
def removePath : FPath → FNode → FNode
  | [], t => t
  | [name], t =>
    match t with
    | .dir r cs => .dir r (removeChild name cs)
    | _ => t
  | name :: rest, t =>
    match t with
    | .dir r cs => .dir r (mapAt (fun c => removePath rest c) name cs)
    | _ => t

/-- `shutil.rmtree` as the scripts see it: either an exception (abstracted by
the `rmtreeFails` oracle, and always raised on a missing path), or removal of
the subtree. -/
def rmtree (w : World) (p : FPath) : Option World :=
  if w.rmtreeFails p || !pathExists w.root p then none
  else some { w with root := removePath p w.root }

/-- `cleanup_materials.delete_material(material, force)` (lines 193-206): with
`force = false` an explicit per-entry confirmation (`confirmResp`, the y/n
answer bound to that entry) gates the removal; any removal error is caught and
reported, returning failure. -/
def delete_material (w : World) (m : Material) (force confirmResp : Bool) : Bool × World :=
  if !force && !confirmResp then (false, w)
  else
    match rmtree w m.path with
    | some w' => (true, w')
    | none => (false, w)

/-- The outcome `cleanup_specific` reports (its prints and return value). -/
inductive CleanupResult where
  | notFound (searched : List (FPath × String))
  | deleted (m : Material)
  | declined
  | failed
deriving Repr, DecidableEq

/-- Lines 256-260 of `cleanup_specific`: the roots it searches — the existing
ones, or, when none exists, the smart default labelled `auto`. -/
def searchedRoots (w : World) : List (FPath × String) :=
  match get_materials_dirs w with
  | [] => [(get_materials_dir w, "auto")]
  | ds => ds

/-- `cleanup_materials.cleanup_specific(name, force)` (lines 254-293): search
the candidate roots in order for the first one containing `name`; report
not-found (naming every searched root) when none does; otherwise delete that
single entry via `delete_material`. -/
def cleanup_specific (w : World) (name : String) (force confirmResp : Bool) :
    CleanupResult × World :=
  let dirs := searchedRoots w
  match dirs.find? fun d => pathExists w.root (d.1 ++ [name]) with
  | none => (.notFound dirs, w)
  | some (mdir, mode) =>
    let target := mdir ++ [name]
    let m : Material := ⟨name, target, sizeAt w target, mode⟩
    if !force && !confirmResp then (.declined, w)
    else
      match rmtree w target with
      | some w' => (.deleted m, w')
      | none => (.failed, w)

/-- The outcome of a bulk deletion (`cleanup_all`, or the `all` branch of the
interactive mode): nothing to do, cancelled at the phrase gate, or done with a
completion count out of the requested total. -/
inductive AllResult where
  | nothing
  | cancelled
  | done (deletedCount total : Nat)
deriving Repr, DecidableEq

/-- The deletion loop of `cleanup_all` (lines 312-319): try to remove each
entry in turn, counting successes; an error on one entry is caught and the
loop continues with the rest. -/
def deleteLoop (acc : Nat × World) : List Material → Nat × World
  | [] => acc
  | m :: rest =>
    match rmtree acc.2 m.path with
    | some w2 => deleteLoop (acc.1 + 1, w2) rest
    | none => deleteLoop acc rest

/-- `cleanup_materials.cleanup_all(force)` (lines 296-321): snapshot the
inventory; without `force`, a single compound confirmation — typing the
literal phrase `DELETE ALL` — gates the whole batch; then each entry is
removed directly (no per-entry prompt), failures tolerated, and a completion
count out of the requested total is reported. -/
def cleanup_all (w : World) (force : Bool) (confirmPhrase : String) : AllResult × World :=
  let materials := list_materials w
  if materials.isEmpty then (.nothing, w)
  else if !force && confirmPhrase ≠ "DELETE ALL" then (.cancelled, w)
  else
    let r := deleteLoop (0, w) materials
    (.done r.1 materials.length, r.2)

/-- The deletion loop of the `all` branch of `interactive_cleanup`
(lines 234-237): each entry goes through `delete_material` with
`force=False`, so each entry asks its own y/n confirmation (`resp`, indexed
by entry name); only affirmed-and-successful deletions are counted. -/
def interactiveAllLoop (resp : String → Bool) (acc : Nat × World) :
    List Material → Nat × World
  | [] => acc
  | m :: rest =>
    let r := delete_material acc.2 m false (resp m.name)
    interactiveAllLoop resp (if r.1 then acc.1 + 1 else acc.1, r.2) rest

/-- The `all` branch of `cleanup_materials.interactive_cleanup`
(lines 230-241): gated by the same literal `DELETE ALL` phrase, then runs
`delete_material(mat, force=False)` on each snapshot entry — each entry is
additionally confirmed individually — and reports a completion count out of
the requested total. -/
def interactive_delete_all (w : World) (confirmPhrase : String) (resp : String → Bool) :
    AllResult × World :=
  let materials := list_materials w
  if materials.isEmpty then (.nothing, w)
  else if confirmPhrase ≠ "DELETE ALL" then (.cancelled, w)
  else
    let r := interactiveAllLoop resp (0, w) materials
    (.done r.1 materials.length, r.2)

/-- A source directory handed to the packaging filter: its basename and the
relative component paths of every file under it (directories are not listed;
`rglob` visits them but `is_file()` filters them out). -/
structure SkillDir where
  name : String
  files : List (List String)
deriving Repr, DecidableEq

/-- `package_skill.py` line 69: the allow-listed top-level subdirectory
names. -/
def allowed_paths : List String := ["scripts", "references", "assets"]

/-- The inclusion test of `package_skill` (lines 81-91): the top-level
`SKILL.md`, or a file under an allow-listed top-level subdirectory that is not
a Python cache artifact (`__pycache__` component or `.pyc` name). -/
def shouldInclude (rel : List String) : Bool :=
  if rel = ["SKILL.md"] then true
  else
    match rel with
    | p0 :: _ =>
      allowed_paths.contains p0 && !rel.contains "__pycache__"
        && !strEndsWith (baseName rel) ".pyc"
    | [] => false

/-- What one `package_skill` run writes: the archive entries added and the
files enumerated as skipped, both as paths rooted one level above the source
directory (`file_path.relative_to(skill_path.parent)`). -/
structure PackageResult where
  added : List (List String)
  skipped : List (List String)
deriving Repr, DecidableEq

/-- `package_skill.package_skill(skill_path, ...)` (lines 19-106): fail fast
when the top-level `SKILL.md` marker is absent or the external validation
collaborator (`quick_validate.validate_skill`, outside this repository)
reports the content invalid (`valid` is that collaborator's verdict);
otherwise walk every file, adding the allow-listed ones to the archive and
enumerating every other file as skipped. -/
def package_skill (d : SkillDir) (valid : Bool) : Option PackageResult :=
  if !d.files.contains ["SKILL.md"] then none
  else if !valid then none
  else
    some (d.files.foldl
      (fun acc rel =>
        if shouldInclude rel then { acc with added := acc.added ++ [d.name :: rel] }
        else { acc with skipped := acc.skipped ++ [d.name :: rel] })
      ⟨[], []⟩)

/-! ## Lemmas about the upward boundary search -/

theorem find_project_root_loop_eq_find (t : FNode) :
    ∀ (fuel : Nat) (p : FPath),
      find_project_root_loop t fuel p = (ancestorChain_loop fuel p).find? (hasMarker t) := by
  intro fuel
  induction fuel with
  | zero => intro p; rfl
  | succ n ih =>
    intro p
    cases p with
    | nil => rfl
    | cons a as =>
      simp only [find_project_root_loop, ancestorChain_loop, List.find?]
      cases h : hasMarker t (a :: as) with
      | true => rfl
      | false => exact ih (a :: as).dropLast

theorem fetch_find_project_root_loop_eq_find (t : FNode) (isSF : Bool) (sd : FPath) :
    ∀ (fuel : Nat) (p : FPath),
      fetch_find_project_root_loop t isSF sd fuel p =
        ((ancestorChain_loop fuel p).filter
          (fun d => !(isSF && decide (d = sd)))).find? (hasMarker t) := by
  intro fuel
  induction fuel with
  | zero => intro p; rfl
  | succ n ih =>
    intro p
    cases p with
    | nil => rfl
    | cons a as =>
      have hstep : fetch_find_project_root_loop t isSF sd (n + 1) (a :: as) =
          (if hasMarker t (a :: as) then
            (if isSF = true ∧ a :: as = sd then
              fetch_find_project_root_loop t isSF sd n (a :: as).dropLast
            else some (a :: as))
          else fetch_find_project_root_loop t isSF sd n (a :: as).dropLast) := rfl
      have hchain : ancestorChain_loop (n + 1) (a :: as) =
          (a :: as) :: ancestorChain_loop n (a :: as).dropLast := rfl
      rw [hstep, hchain, List.filter_cons]
      by_cases hm : hasMarker t (a :: as) = true
      · rw [if_pos hm]
        by_cases hskip : isSF = true ∧ a :: as = sd
        · have hp : (!(isSF && decide (a :: as = sd))) = false := by
            simp [hskip.1, hskip.2]
          rw [if_pos hskip, hp]
          simp only [Bool.false_eq_true, if_false]
          exact ih (a :: as).dropLast
        · have hp : (!(isSF && decide (a :: as = sd))) = true := by
            by_cases h2 : a :: as = sd
            · cases h1 : isSF
              · simp
              · exact absurd ⟨h1, h2⟩ hskip
            · simp [h2]
          rw [if_neg hskip, hp, if_pos rfl]
          exact (List.find?_cons_of_pos _ hm).symm
      · have hmf : hasMarker t (a :: as) = false := Bool.eq_false_iff.mpr hm
        rw [if_neg hm]
        by_cases hp : (!(isSF && decide (a :: as = sd))) = true
        · rw [if_pos hp]
          rw [List.find?_cons_of_neg _ (by simp [hmf])]
          exact ih (a :: as).dropLast
        · rw [if_neg hp]
          exact ih (a :: as).dropLast

/-- Claim C7: for every starting path, the upward boundary search terminates
(the loop is bounded by the starting depth and stops at the filesystem root);
it returns `none` exactly when no directory on the walk carries a marker, and
otherwise the first marked directory nearest to the starting path — stated as:
each resolver equals `find?` of the marker test over the visited ancestor
chain (for the fetch variant, with the special-cased installation directory
removed from consideration).  Independence of the starting depth below the
match is immediate from the `find?` characterization. -/
theorem claim_C7 : ∀ (w : World) (start : Option FPath),
    find_project_root w start =
      (ancestorChain (start.getD w.cwd)).find? (hasMarker w.root)
    ∧ fetch_find_project_root w start =
      ((ancestorChain (start.getD w.cwd)).filter
        (fun d => !(isSkillForgeDir w && decide (d = w.installDir)))).find? (hasMarker w.root) :=
  fun w start =>
    ⟨find_project_root_loop_eq_find w.root (start.getD w.cwd).length (start.getD w.cwd),
     fetch_find_project_root_loop_eq_find w.root (isSkillForgeDir w) w.installDir
       (start.getD w.cwd).length (start.getD w.cwd)⟩

/-- A world in which the tool's installation directory
`/home/tools/skill-forge` holds `SKILL.md` and a `.claude` marker, the
ancestor `/home` holds a `.git` marker, and the current working directory is
inside the installation directory. -/
def C1world : World :=
  ⟨.dir true (.cons "home" (.dir true
      (.cons ".git" (.dir true .nil)
      (.cons "tools" (.dir true
        (.cons "skill-forge" (.dir true
          (.cons "SKILL.md" (.file 10)
          (.cons ".claude" (.dir true .nil)
          (.cons "scripts" (.dir true .nil) .nil)))) .nil)) .nil))) .nil),
   ["home", "tools", "skill-forge", "scripts"],
   ["home"],
   ["home", "tools", "skill-forge"],
   fun _ => false⟩

/-- Claim C1, evaluated at the failing input: starting inside the tool's own
marked installation directory, `cleanup_materials.find_project_root` returns
that installation directory itself (it has no special case), while
`fetch_source.find_project_root` skips it and returns the marked ancestor
above — so the claimed skip does not hold for the cleanup/list entry
points. -/
theorem claim_C1 :
    isAncestorOrSelf C1world.installDir C1world.cwd = true
    ∧ hasMarker C1world.root C1world.installDir = true
    ∧ isSkillForgeDir C1world = true
    ∧ find_project_root C1world none = some C1world.installDir
    ∧ fetch_find_project_root C1world none = some ["home"]
    ∧ C1world.installDir ≠ ["home"] := by decide

/-! ## Basic path-resolution lemmas -/

theorem lookupPath_append : ∀ (p q : FPath) (t : FNode),
    lookupPath t (p ++ q) = (lookupPath t p).bind (fun s => lookupPath s q) := by
  intro p
  induction p with
  | nil => intro q t; cases t <;> rfl
  | cons a as ih =>
    intro q t
    cases t with
    | file sz => rfl
    | symlink tg => rfl
    | dir r cs =>
      show lookupPath (FNode.dir r cs) (a :: (as ++ q)) = _
      simp only [lookupPath]
      cases lookupChild cs a with
      | none => rfl
      | some c => exact ih q c

theorem pathExists_append_false {t : FNode} {p : FPath} (q : FPath)
    (h : pathExists t p = false) : pathExists t (p ++ q) = false := by
  unfold pathExists at *
  rw [lookupPath_append]
  cases hl : lookupPath t p with
  | none => rfl
  | some s => rw [hl] at h; simp at h

/-! ## Lemmas about the candidate-roots resolver -/

theorem mem_get_materials_dirs_exists (w : World) (d : FPath × String)
    (hd : d ∈ get_materials_dirs w) : pathExists w.root d.1 = true := by
  unfold get_materials_dirs at hd
  rcases List.mem_append.mp hd with h | h
  · unfold projRootList at h
    cases hfp : find_project_root w none with
    | none => rw [hfp] at h; simp at h
    | some pr =>
      rw [hfp] at h
      dsimp only at h
      by_cases hex : pathExists w.root (projectMaterialsPath pr) = true
      · rw [if_pos hex] at h
        simp only [List.mem_singleton] at h
        rw [h]
        exact hex
      · rw [if_neg hex] at h; simp at h
  · unfold globRootList at h
    by_cases hex : pathExists w.root (globalMaterialsPath w) = true
    · rw [if_pos hex] at h
      simp only [List.mem_singleton] at h
      rw [h]
      exact hex
    · rw [if_neg hex] at h; simp at h

theorem projRootList_eq_nil_iff (w : World) :
    projRootList w = [] ↔
      (∀ pr, find_project_root w none = some pr →
        pathExists w.root (projectMaterialsPath pr) = false) := by
  unfold projRootList
  cases hfp : find_project_root w none with
  | none => simp
  | some pr =>
    dsimp only
    by_cases hex : pathExists w.root (projectMaterialsPath pr) = true
    · rw [if_pos hex]
      constructor
      · intro h; exact absurd h (by simp)
      · intro h
        exfalso
        have h2 := h pr rfl
        rw [hex] at h2
        exact Bool.noConfusion h2
    · rw [if_neg hex]
      constructor
      · intro _ pr' hpr'
        have hpp : pr = pr' := by injection hpr'
        rw [← hpp]
        exact Bool.eq_false_iff.mpr hex
      · intro _; rfl

theorem globRootList_eq_nil_iff (w : World) :
    globRootList w = [] ↔ pathExists w.root (globalMaterialsPath w) = false := by
  unfold globRootList
  by_cases hex : pathExists w.root (globalMaterialsPath w) = true
  · rw [if_pos hex]
    constructor
    · intro h; exact absurd h (by simp)
    · intro h; rw [hex] at h; exact Bool.noConfusion h
  · rw [if_neg hex]
    exact ⟨fun _ => Bool.eq_false_iff.mpr hex, fun _ => rfl⟩

theorem get_materials_dir_not_exists (w : World) (h : get_materials_dirs w = []) :
    pathExists w.root (get_materials_dir w) = false := by
  have hsplit := List.append_eq_nil.mp h
  unfold get_materials_dir
  rw [h]
  cases hfp : find_project_root w none with
  | some pr => exact (projRootList_eq_nil_iff w).mp hsplit.1 pr hfp
  | none => exact (globRootList_eq_nil_iff w).mp hsplit.2

/-- Claim C5: `get_materials_dirs` returns a root only if that location
currently exists on disk; it is a pure query of the world (the model gives it
no way to create directories), and the significant order is preserved: a
`project` root, when reported, is first, and the `global` root, when reported,
is last.  The two iffs state that (re-)creating a previously absent root makes
it appear, in its correct position, in the very next call. -/
theorem claim_C5 : ∀ w : World,
    (∀ d ∈ get_materials_dirs w, pathExists w.root d.1 = true)
    ∧ (pathExists w.root (globalMaterialsPath w) = true ↔
        ∃ front, get_materials_dirs w = front ++ [(globalMaterialsPath w, "global")])
    ∧ (∀ pr, find_project_root w none = some pr →
        (pathExists w.root (projectMaterialsPath pr) = true ↔
          ∃ rest, get_materials_dirs w = (projectMaterialsPath pr, "project") :: rest)) := by
  intro w
  refine ⟨mem_get_materials_dirs_exists w, ⟨?_, ?_⟩, fun pr hfp => ⟨?_, ?_⟩⟩
  · intro hex
    refine ⟨projRootList w, ?_⟩
    have hgl : globRootList w = [(globalMaterialsPath w, "global")] := by
      unfold globRootList; rw [if_pos hex]
    show projRootList w ++ globRootList w = _
    rw [hgl]
  · rintro ⟨front, heq⟩
    have hmem : (globalMaterialsPath w, "global") ∈ get_materials_dirs w := by
      rw [heq]; exact List.mem_append.mpr (Or.inr (List.mem_singleton.mpr rfl))
    exact mem_get_materials_dirs_exists w _ hmem
  · intro hex
    refine ⟨globRootList w, ?_⟩
    have hpl : projRootList w = [(projectMaterialsPath pr, "project")] := by
      unfold projRootList; rw [hfp]; dsimp only; rw [if_pos hex]
    show projRootList w ++ globRootList w = _
    rw [hpl]
    rfl
  · rintro ⟨rest, heq⟩
    have hmem : (projectMaterialsPath pr, "project") ∈ get_materials_dirs w := by
      rw [heq]; exact List.mem_cons_self _ _
    exact mem_get_materials_dirs_exists w _ hmem

/-- A world whose only materials root is an existing global
`~/skill-materials`. -/
def C5world : World :=
  ⟨.dir true (.cons "home" (.dir true
      (.cons "u" (.dir true
        (.cons "skill-materials" (.dir true .nil) .nil)) .nil)) .nil),
   ["home", "u"], ["home", "u"], [], fun _ => false⟩

/-- Witness for C5 at a concrete world: the existing global root is reported,
in last position. -/
theorem claim_C5_witness :
    ∃ front, get_materials_dirs C5world =
      front ++ [(globalMaterialsPath C5world, "global")] :=
  (claim_C5 C5world).2.1.mp (by decide)

/-- Claim C10 (amended): when no candidate root exists, `cleanup_specific`
does fall back to searching the smart default write target, labelled `auto` —
but because that location does not exist on disk (otherwise
`get_materials_dirs` would have returned it), no entry can exist beneath it,
so the operation necessarily reports not-found naming the `auto` root, and
deletes nothing. -/
theorem claim_C10 (w : World) (name : String) (force confirmResp : Bool)
    (h : get_materials_dirs w = []) :
    cleanup_specific w name force confirmResp =
      (.notFound [(get_materials_dir w, "auto")], w) := by
  have hroots : searchedRoots w = [(get_materials_dir w, "auto")] := by
    unfold searchedRoots; rw [h]
  have hnx : pathExists w.root (get_materials_dir w ++ [name]) = false :=
    pathExists_append_false _ (get_materials_dir_not_exists w h)
  unfold cleanup_specific
  rw [hroots]
  simp [List.find?, hnx]

/-- A world with no materials root anywhere and no project boundary. -/
def C10world : World :=
  ⟨.dir true (.cons "home" (.dir true (.cons "u" (.dir true .nil) .nil)) .nil),
   ["home", "u"], ["home", "u"], [], fun _ => false⟩

/-- Counterexample to C10 as claimed: at a concrete world where neither root
exists, the `auto` fallback is searched but finds nothing — the operation
reports not-found (naming the `auto` root) instead of finding and deleting an
entry. -/
theorem claim_C10_counterexample :
    get_materials_dirs C10world = []
    ∧ (cleanup_specific C10world "alpha" true true).1 =
        .notFound [(["home", "u", "skill-materials"], "auto")] := by decide

/-- A world with a project boundary (a `.git` at `/home/u`) but no existing
materials root; the `auto` fallback is the project-mode path. -/
def C10witWorld : World :=
  ⟨.dir true (.cons "home" (.dir true
      (.cons "u" (.dir true (.cons ".git" (.dir true .nil) .nil)) .nil)) .nil),
   ["home", "u"], ["home", "u"], [], fun _ => false⟩

/-- Witness for the amended C10 at a concrete world. -/
theorem claim_C10_witness :
    cleanup_specific C10witWorld "x" false false =
      (.notFound [(get_materials_dir C10witWorld, "auto")], C10witWorld) :=
  claim_C10 C10witWorld "x" false false (by decide)

/-! ## Lemmas about the packaging filter -/

theorem package_fold_eq (name : String) : ∀ (l : List (List String)) (acc : PackageResult),
    (l.foldl
      (fun acc rel =>
        if shouldInclude rel then { acc with added := acc.added ++ [name :: rel] }
        else { acc with skipped := acc.skipped ++ [name :: rel] })
      acc)
    = ⟨acc.added ++ (l.filter shouldInclude).map (fun rel => name :: rel),
       acc.skipped ++ (l.filter (fun r => !shouldInclude r)).map (fun rel => name :: rel)⟩ := by
  intro l
  induction l with
  | nil => intro acc; simp
  | cons r rs ih =>
    intro acc
    by_cases h : shouldInclude r = true
    · simp only [List.foldl_cons, if_pos h, List.filter_cons, h, Bool.not_true,
        Bool.false_eq_true, if_false, if_true, List.map_cons]
      rw [ih]
      simp
    · have hf : shouldInclude r = false := Bool.eq_false_iff.mpr h
      simp only [List.foldl_cons, if_neg h, List.filter_cons, hf, Bool.not_false,
        Bool.false_eq_true, if_false, if_true, List.map_cons]
      rw [ih]
      simp

theorem shouldInclude_iff (rel : List String) :
    shouldInclude rel = true ↔
      (rel = ["SKILL.md"]
        ∨ ∃ p0 rest, rel = p0 :: rest ∧ p0 ∈ allowed_paths
            ∧ "__pycache__" ∉ rel ∧ strEndsWith (baseName rel) ".pyc" = false) := by
  unfold shouldInclude
  by_cases hskill : rel = ["SKILL.md"]
  · simp [hskill]
  · rw [if_neg hskill]
    cases rel with
    | nil => simp
    | cons p0 rest =>
      show (allowed_paths.contains p0 && !(p0 :: rest).contains "__pycache__"
          && !strEndsWith (baseName (p0 :: rest)) ".pyc") = true ↔ _
      rw [Bool.and_eq_true, Bool.and_eq_true]
      constructor
      · rintro ⟨⟨hc1, hc2⟩, hc3⟩
        refine Or.inr ⟨p0, rest, rfl, List.elem_iff.mp hc1, ?_, ?_⟩
        · intro hmem
          have hcc : (p0 :: rest).contains "__pycache__" = true := List.elem_iff.mpr hmem
          rw [hcc] at hc2
          exact Bool.noConfusion hc2
        · cases hsfx : strEndsWith (baseName (p0 :: rest)) ".pyc" with
          | false => rfl
          | true => rw [hsfx] at hc3; exact Bool.noConfusion hc3
      · rintro (hc | ⟨q0, qrest, heq, hmem, hnc, hnp⟩)
        · exact absurd hc hskill
        · injection heq with h1 h2
          subst h1
          subst h2
          refine ⟨⟨List.elem_iff.mpr hmem, ?_⟩, ?_⟩
          · cases hcc : (p0 :: rest).contains "__pycache__" with
            | false => rfl
            | true => exact absurd (List.elem_iff.mp hcc) hnc
          · rw [hnp]; rfl

/-- Claim C9: on a source directory accepted by the packaging filter (marker
file present and external validation passed), the archive contains exactly the
top-level `SKILL.md` and the non-cache files under the allow-listed top-level
subdirectories; every other file is enumerated as skipped; and every recorded
path — archived or skipped — is rooted one level above the source directory,
i.e. starts with the source directory's own name. -/
theorem claim_C9 (d : SkillDir) (valid : Bool)
    (hmd : ["SKILL.md"] ∈ d.files) (hv : valid = true) :
    ∃ res, package_skill d valid = some res
      ∧ res.added = (d.files.filter shouldInclude).map (fun rel => d.name :: rel)
      ∧ res.skipped =
          (d.files.filter (fun r => !shouldInclude r)).map (fun rel => d.name :: rel)
      ∧ (∀ rel, shouldInclude rel = true ↔
          (rel = ["SKILL.md"]
            ∨ ∃ p0 rest, rel = p0 :: rest ∧ p0 ∈ allowed_paths
                ∧ ¬ "__pycache__" ∈ rel ∧ strEndsWith (baseName rel) ".pyc" = false))
      ∧ (∀ a, (a ∈ res.added ∨ a ∈ res.skipped) → ∃ rel ∈ d.files, a = d.name :: rel)
      ∧ (∀ rel ∈ d.files, (d.name :: rel) ∈ res.added ∨ (d.name :: rel) ∈ res.skipped) := by
  have hc : d.files.contains ["SKILL.md"] = true := List.elem_iff.mpr hmd
  have hpack : package_skill d valid =
      some ⟨(d.files.filter shouldInclude).map (fun rel => d.name :: rel),
            (d.files.filter (fun r => !shouldInclude r)).map (fun rel => d.name :: rel)⟩ := by
    unfold package_skill
    rw [hc, hv]
    simp only [Bool.not_true, Bool.false_eq_true, if_false]
    rw [package_fold_eq]
    simp
  refine ⟨_, hpack, rfl, rfl, shouldInclude_iff, ?_, ?_⟩
  · intro a ha
    rcases ha with h | h
    · rcases List.mem_map.mp h with ⟨rel, hrel, heq⟩
      exact ⟨rel, List.mem_of_mem_filter hrel, heq.symm⟩
    · rcases List.mem_map.mp h with ⟨rel, hrel, heq⟩
      exact ⟨rel, List.mem_of_mem_filter hrel, heq.symm⟩
  · intro rel hrel
    by_cases h : shouldInclude rel = true
    · exact Or.inl (List.mem_map.mpr ⟨rel, List.mem_filter.mpr ⟨hrel, h⟩, rfl⟩)
    · refine Or.inr (List.mem_map.mpr ⟨rel, List.mem_filter.mpr ⟨hrel, ?_⟩, rfl⟩)
      rw [Bool.eq_false_iff.mpr h]
      rfl

/-- A concrete skill directory: marker file, a script, a cache artifact, a
stray top-level file, an asset. -/
def C9dir : SkillDir :=
  ⟨"my-skill",
   [["SKILL.md"], ["scripts", "run.py"], ["scripts", "__pycache__", "run.pyc"],
    ["notes.txt"], ["assets", "logo.png"]]⟩

/-- Witness for C9 at a concrete accepted directory. -/
theorem claim_C9_witness :
    ∃ res, package_skill C9dir true = some res
      ∧ res.added = (C9dir.files.filter shouldInclude).map (fun rel => C9dir.name :: rel)
      ∧ res.skipped =
          (C9dir.files.filter (fun r => !shouldInclude r)).map (fun rel => C9dir.name :: rel)
      ∧ (∀ rel, shouldInclude rel = true ↔
          (rel = ["SKILL.md"]
            ∨ ∃ p0 rest, rel = p0 :: rest ∧ p0 ∈ allowed_paths
                ∧ ¬ "__pycache__" ∈ rel ∧ strEndsWith (baseName rel) ".pyc" = false))
      ∧ (∀ a, (a ∈ res.added ∨ a ∈ res.skipped) → ∃ rel ∈ C9dir.files, a = C9dir.name :: rel)
      ∧ (∀ rel ∈ C9dir.files,
          (C9dir.name :: rel) ∈ res.added ∨ (C9dir.name :: rel) ∈ res.skipped) :=
  claim_C9 C9dir true (by decide) rfl

/-! ## The lexicographic order used by the inventory sort -/

theorem charLt_asymm {a b : Char} (h : a.val < b.val) : ¬ b.val < a.val :=
  lt_asymm (α := Char) h

theorem charLt_trans {a b c : Char} (h1 : a.val < b.val) (h2 : b.val < c.val) :
    a.val < c.val :=
  lt_trans (α := Char) h1 h2

theorem charLt_conn {a b : Char} (h1 : ¬ a.val < b.val) (h2 : ¬ b.val < a.val) : a = b :=
  le_antisymm (α := Char) (not_lt.mp h2) (not_lt.mp h1)

theorem strLtAux_asymm : ∀ (a b : List Char), strLtAux a b = true → strLtAux b a = false := by
  intro a
  induction a with
  | nil =>
    intro b h
    cases b with
    | nil => exact absurd h (by simp [strLtAux])
    | cons y ys => rfl
  | cons x xs ih =>
    intro b h
    cases b with
    | nil => exact absurd h (by simp [strLtAux])
    | cons y ys =>
      unfold strLtAux at h ⊢
      by_cases hxy : x.val < y.val
      · rw [if_neg (charLt_asymm hxy), if_pos hxy]
      · rw [if_neg hxy] at h
        by_cases hyx : y.val < x.val
        · rw [if_pos hyx] at h; exact Bool.noConfusion h
        · rw [if_neg hyx] at h
          rw [if_neg hyx, if_neg hxy]
          exact ih ys h

theorem strLtAux_trans : ∀ (a b c : List Char),
    strLtAux a b = true → strLtAux b c = true → strLtAux a c = true := by
  intro a
  induction a with
  | nil =>
    intro b c hab hbc
    cases b with
    | nil => exact absurd hab (by simp [strLtAux])
    | cons y ys =>
      cases c with
      | nil => exact absurd hbc (by simp [strLtAux])
      | cons z zs => rfl
  | cons x xs ih =>
    intro b c hab hbc
    cases b with
    | nil => exact absurd hab (by simp [strLtAux])
    | cons y ys =>
      cases c with
      | nil => exact absurd hbc (by simp [strLtAux])
      | cons z zs =>
        unfold strLtAux at hab hbc ⊢
        by_cases hxy : x.val < y.val
        · by_cases hyz : y.val < z.val
          · rw [if_pos (charLt_trans hxy hyz)]
          · rw [if_neg hyz] at hbc
            by_cases hzy : z.val < y.val
            · rw [if_pos hzy] at hbc; exact Bool.noConfusion hbc
            · have hyzeq : y = z := charLt_conn hyz hzy
              subst hyzeq
              rw [if_pos hxy]
        · rw [if_neg hxy] at hab
          by_cases hyx : y.val < x.val
          · rw [if_pos hyx] at hab; exact Bool.noConfusion hab
          · rw [if_neg hyx] at hab
            have hxyeq : x = y := charLt_conn hxy hyx
            subst hxyeq
            by_cases hxz : x.val < z.val
            · rw [if_pos hxz]
            · rw [if_neg hxz] at hbc ⊢
              by_cases hzx : z.val < x.val
              · rw [if_pos hzx] at hbc; exact Bool.noConfusion hbc
              · rw [if_neg hzx] at hbc ⊢
                exact ih ys zs hab hbc

theorem strLtAux_conn : ∀ (a b : List Char),
    strLtAux a b = false → strLtAux b a = false → a = b := by
  intro a
  induction a with
  | nil =>
    intro b h1 _
    cases b with
    | nil => rfl
    | cons y ys => exact absurd h1 (by simp [strLtAux])
  | cons x xs ih =>
    intro b h1 h2
    cases b with
    | nil => exact absurd h2 (by simp [strLtAux])
    | cons y ys =>
      unfold strLtAux at h1 h2
      by_cases hxy : x.val < y.val
      · rw [if_pos hxy] at h1; exact Bool.noConfusion h1
      · rw [if_neg hxy] at h1
        by_cases hyx : y.val < x.val
        · rw [if_pos hyx] at h2; exact Bool.noConfusion h2
        · rw [if_neg hyx] at h1
          rw [if_neg hyx, if_neg hxy] at h2
          have hxyeq : x = y := charLt_conn hxy hyx
          rw [hxyeq, ih ys h1 h2]

theorem strLt_asymm (a b : String) (h : strLt a b = true) : strLt b a = false :=
  strLtAux_asymm a.data b.data h

theorem strLt_trans (a b c : String) (h1 : strLt a b = true) (h2 : strLt b c = true) :
    strLt a c = true :=
  strLtAux_trans a.data b.data c.data h1 h2

theorem strLt_conn (a b : String) (h1 : strLt a b = false) (h2 : strLt b a = false) :
    a = b := by
  have h := strLtAux_conn a.data b.data h1 h2
  cases a; cases b; exact congrArg String.mk h

instance : IsTotal (String × FNode) nameLe :=
  ⟨fun x y => by
    unfold nameLe
    by_cases h : strLt y.1 x.1 = true
    · exact Or.inr (strLt_asymm _ _ h)
    · exact Or.inl (Bool.eq_false_iff.mpr h)⟩

instance : IsTrans (String × FNode) nameLe :=
  ⟨fun x y z hxy hyz => by
    unfold nameLe at *
    cases hzx : strLt z.1 x.1 with
    | false => rfl
    | true =>
      exfalso
      cases hyz2 : strLt y.1 z.1 with
      | true =>
        have h := strLt_trans y.1 z.1 x.1 hyz2 hzx
        rw [h] at hxy
        exact Bool.noConfusion hxy
      | false =>
        have heq : y.1 = z.1 := strLt_conn _ _ hyz2 hyz
        rw [← heq] at hzx
        rw [hzx] at hxy
        exact Bool.noConfusion hxy⟩

/-! ## Lemmas about the workspace inventory -/

theorem sortedEntries_pairwise (cs : FChildren) :
    List.Pairwise nameLe (sortedEntries cs) :=
  List.sorted_insertionSort nameLe (childrenToList cs)

theorem mem_sortedEntries (cs : FChildren) (x : String × FNode) :
    x ∈ sortedEntries cs ↔ x ∈ childrenToList cs :=
  (List.perm_insertionSort nameLe (childrenToList cs)).mem_iff

theorem entriesOfRoot_eq (w : World) (d : FPath × String) (r : Bool) (cs : FChildren)
    (hl : lookupPath w.root d.1 = some (.dir r cs)) :
    entriesOfRoot w d = (sortedEntries cs).filterMap fun nc =>
      if isDirNode nc.2 && !startsWithDot nc.1 then
        some ⟨nc.1, d.1 ++ [nc.1], get_dir_size nc.2, d.2⟩
      else none := by
  unfold entriesOfRoot
  rw [hl]

theorem mem_entriesOfRoot_iff (w : World) (d : FPath × String) (r : Bool) (cs : FChildren)
    (hl : lookupPath w.root d.1 = some (.dir r cs)) (m : Material) :
    m ∈ entriesOfRoot w d ↔
      ∃ nc, nc ∈ childrenToList cs ∧ isDirNode nc.2 = true ∧ startsWithDot nc.1 = false
        ∧ m = ⟨nc.1, d.1 ++ [nc.1], get_dir_size nc.2, d.2⟩ := by
  rw [entriesOfRoot_eq w d r cs hl, List.mem_filterMap]
  constructor
  · rintro ⟨nc, hmem, hf⟩
    by_cases hc : (isDirNode nc.2 && !startsWithDot nc.1) = true
    · rw [if_pos hc] at hf
      injection hf with hf
      have hand := (Bool.and_eq_true _ _).mp hc
      refine ⟨nc, (mem_sortedEntries cs nc).mp hmem, hand.1, ?_, hf.symm⟩
      cases hsd : startsWithDot nc.1 with
      | false => rfl
      | true => rw [hsd] at hand; exact Bool.noConfusion hand.2
    · rw [if_neg hc] at hf
      exact Option.noConfusion hf
  · rintro ⟨nc, hmem, hdir, hhid, hm⟩
    refine ⟨nc, (mem_sortedEntries cs nc).mpr hmem, ?_⟩
    have hc : (isDirNode nc.2 && !startsWithDot nc.1) = true := by
      rw [hdir, hhid]; rfl
    rw [if_pos hc, hm]

theorem shape_of_mem_entriesOfRoot (w : World) (d : FPath × String) (m : Material)
    (h : m ∈ entriesOfRoot w d) :
    m.mode = d.2 ∧ startsWithDot m.name = false ∧ m.path = d.1 ++ [m.name] := by
  cases hl : lookupPath w.root d.1 with
  | none => unfold entriesOfRoot at h; rw [hl] at h; simp at h
  | some t =>
    cases t with
    | file sz => unfold entriesOfRoot at h; rw [hl] at h; simp at h
    | symlink tg => unfold entriesOfRoot at h; rw [hl] at h; simp at h
    | dir r cs =>
      rcases (mem_entriesOfRoot_iff w d r cs hl m).mp h with ⟨nc, _, _, hhid, hm⟩
      rw [hm]
      exact ⟨rfl, hhid, rfl⟩

theorem mem_projRootList (w : World) (d : FPath × String) (h : d ∈ projRootList w) :
    d.2 = "project" := by
  unfold projRootList at h
  cases hfp : find_project_root w none with
  | none => rw [hfp] at h; simp at h
  | some pr =>
    rw [hfp] at h
    dsimp only at h
    by_cases hex : pathExists w.root (projectMaterialsPath pr) = true
    · rw [if_pos hex] at h
      simp only [List.mem_singleton] at h
      rw [h]
    · rw [if_neg hex] at h; simp at h

theorem mem_globRootList (w : World) (d : FPath × String) (h : d ∈ globRootList w) :
    d.2 = "global" := by
  unfold globRootList at h
  by_cases hex : pathExists w.root (globalMaterialsPath w) = true
  · rw [if_pos hex] at h
    simp only [List.mem_singleton] at h
    rw [h]
  · rw [if_neg hex] at h; simp at h

theorem projRootList_shape (w : World) :
    projRootList w = [] ∨ ∃ d, projRootList w = [d] := by
  unfold projRootList
  cases find_project_root w none with
  | none => exact Or.inl rfl
  | some pr =>
    dsimp only
    by_cases hex : pathExists w.root (projectMaterialsPath pr) = true
    · rw [if_pos hex]; exact Or.inr ⟨_, rfl⟩
    · rw [if_neg hex]; exact Or.inl rfl

theorem globRootList_shape (w : World) :
    globRootList w = [] ∨ ∃ d, globRootList w = [d] := by
  unfold globRootList
  by_cases hex : pathExists w.root (globalMaterialsPath w) = true
  · rw [if_pos hex]; exact Or.inr ⟨_, rfl⟩
  · rw [if_neg hex]; exact Or.inl rfl

theorem names_filterMap_sublist (pfx : FPath) (md : String) :
    ∀ l : List (String × FNode),
      List.Sublist
        ((l.filterMap fun nc =>
          if isDirNode nc.2 && !startsWithDot nc.1 then
            some (⟨nc.1, pfx ++ [nc.1], get_dir_size nc.2, md⟩ : Material)
          else none).map Material.name)
        (l.map Prod.fst) := by
  intro l
  induction l with
  | nil => simp
  | cons nc rest ih =>
    by_cases hc : (isDirNode nc.2 && !startsWithDot nc.1) = true
    · simp only [List.filterMap_cons, hc, if_true, List.map_cons]
      exact List.Sublist.cons₂ nc.1 ih
    · have hcf : (isDirNode nc.2 && !startsWithDot nc.1) = false := Bool.eq_false_iff.mpr hc
      simp only [List.filterMap_cons, hcf, Bool.false_eq_true, if_false, List.map_cons]
      exact List.Sublist.cons nc.1 ih

theorem entriesOfRoot_names_pairwise (w : World) (d : FPath × String) :
    List.Pairwise (fun a b => strLt b a = false) ((entriesOfRoot w d).map Material.name) := by
  cases hl : lookupPath w.root d.1 with
  | none => unfold entriesOfRoot; rw [hl]; simp
  | some t =>
    cases t with
    | file sz => unfold entriesOfRoot; rw [hl]; simp
    | symlink tg => unfold entriesOfRoot; rw [hl]; simp
    | dir r cs =>
      rw [entriesOfRoot_eq w d r cs hl]
      have hsorted : List.Pairwise (fun a b : String × FNode => strLt b.1 a.1 = false)
          (sortedEntries cs) := sortedEntries_pairwise cs
      have hnames : List.Pairwise (fun a b => strLt b a = false)
          ((sortedEntries cs).map Prod.fst) := List.pairwise_map.mpr hsorted
      exact List.Pairwise.sublist (names_filterMap_sublist d.1 d.2 (sortedEntries cs)) hnames

/-- Claim C6: the inventory is a flat sequence, project-root entries (in name
order) followed by global-root entries (in name order); two same-named entries
in both roots are reported as two distinct rows, one per root, with no
cross-root deduplication; and the listing is a pure function of the disk
state, so two calls with no intervening mutation return identical output. -/
theorem claim_C6 : ∀ w : World,
    (∃ A B, list_materials w = A ++ B
      ∧ (∀ m ∈ A, m.mode = "project") ∧ (∀ m ∈ B, m.mode = "global")
      ∧ List.Pairwise (fun a b => strLt b a = false) (A.map Material.name)
      ∧ List.Pairwise (fun a b => strLt b a = false) (B.map Material.name))
    ∧ (∀ p1 p2 x c1 c2 r1 r2 cs1 cs2,
        (p1, "project") ∈ get_materials_dirs w →
        (p2, "global") ∈ get_materials_dirs w →
        lookupPath w.root p1 = some (.dir r1 cs1) →
        lookupPath w.root p2 = some (.dir r2 cs2) →
        (x, c1) ∈ childrenToList cs1 →
        (x, c2) ∈ childrenToList cs2 →
        isDirNode c1 = true → isDirNode c2 = true → startsWithDot x = false →
        (⟨x, p1 ++ [x], get_dir_size c1, "project"⟩ : Material) ∈ list_materials w
          ∧ (⟨x, p2 ++ [x], get_dir_size c2, "global"⟩ : Material) ∈ list_materials w)
    ∧ list_materials w = list_materials w := by
  intro w
  refine ⟨?_, ?_, rfl⟩
  · refine ⟨(projRootList w).flatMap (entriesOfRoot w),
      (globRootList w).flatMap (entriesOfRoot w), ?_, ?_, ?_, ?_, ?_⟩
    · show (projRootList w ++ globRootList w).flatMap (entriesOfRoot w) = _
      exact List.flatMap_append _ _ _
    · intro m hm
      rcases List.mem_flatMap.mp hm with ⟨d, hd, hmd⟩
      rw [(shape_of_mem_entriesOfRoot w d m hmd).1]
      exact mem_projRootList w d hd
    · intro m hm
      rcases List.mem_flatMap.mp hm with ⟨d, hd, hmd⟩
      rw [(shape_of_mem_entriesOfRoot w d m hmd).1]
      exact mem_globRootList w d hd
    · rcases projRootList_shape w with h | ⟨d, h⟩
      · rw [h]; simp
      · rw [h]
        have : ([d].flatMap (entriesOfRoot w)) = entriesOfRoot w d := by simp
        rw [this]
        exact entriesOfRoot_names_pairwise w d
    · rcases globRootList_shape w with h | ⟨d, h⟩
      · rw [h]; simp
      · rw [h]
        have : ([d].flatMap (entriesOfRoot w)) = entriesOfRoot w d := by simp
        rw [this]
        exact entriesOfRoot_names_pairwise w d
  · intro p1 p2 x c1 c2 r1 r2 cs1 cs2 hd1 hd2 hl1 hl2 hm1 hm2 hdir1 hdir2 hhid
    constructor
    · exact List.mem_flatMap.mpr ⟨(p1, "project"), hd1,
        (mem_entriesOfRoot_iff w (p1, "project") r1 cs1 hl1 _).mpr
          ⟨(x, c1), hm1, hdir1, hhid, rfl⟩⟩
    · exact List.mem_flatMap.mpr ⟨(p2, "global"), hd2,
        (mem_entriesOfRoot_iff w (p2, "global") r2 cs2 hl2 _).mpr
          ⟨(x, c2), hm2, hdir2, hhid, rfl⟩⟩

/-- A world where both roots exist and both contain an entry named `x`
(5 bytes under the project root, 7 bytes under the global root). -/
def C6world : World :=
  ⟨.dir true (.cons "home" (.dir true
      (.cons "u" (.dir true
        (.cons ".git" (.dir true .nil)
        (.cons ".claude" (.dir true
          (.cons "temp-materials" (.dir true
            (.cons "x" (.dir true (.cons "f" (.file 5) .nil)) .nil)) .nil))
        (.cons "skill-materials" (.dir true
          (.cons "x" (.dir true (.cons "g" (.file 7) .nil)) .nil)) .nil)))) .nil)) .nil),
   ["home", "u"], ["home", "u"], [], fun _ => false⟩

/-- Witness for C6: both same-named entries are reported, each under its own
root, with no cross-root merging. -/
theorem claim_C6_witness :
    (⟨"x", ["home", "u", ".claude", "temp-materials", "x"], 5, "project"⟩ : Material)
        ∈ list_materials C6world
    ∧ (⟨"x", ["home", "u", "skill-materials", "x"], 7, "global"⟩ : Material)
        ∈ list_materials C6world :=
  (claim_C6 C6world).2.1
    ["home", "u", ".claude", "temp-materials"] ["home", "u", "skill-materials"] "x"
    (.dir true (.cons "f" (.file 5) .nil)) (.dir true (.cons "g" (.file 7) .nil))
    true true
    (.cons "x" (.dir true (.cons "f" (.file 5) .nil)) .nil)
    (.cons "x" (.dir true (.cons "g" (.file 7) .nil)) .nil)
    (by decide) (by decide) rfl rfl
    (List.mem_singleton.mpr rfl) (List.mem_singleton.mpr rfl)
    rfl rfl (by decide)

/-! ## Well-formed trees and the removal primitive -/

/-- Some child carries this name. -/
def hasName : FChildren → String → Bool
  | .nil, _ => false
  | .cons n _ rest, name => n = name || hasName rest name

/-- A real directory listing: sibling names are distinct, recursively. -/
def wfChildren : FChildren → Bool
  | .nil => true
  | .cons n (.dir _ cs) rest => !(hasName rest n) && wfChildren cs && wfChildren rest
  | .cons n _ rest => !(hasName rest n) && wfChildren rest

/-- A well-formed filesystem tree (distinct sibling names throughout). -/
def wfNode : FNode → Bool
  | .dir _ cs => wfChildren cs
  | _ => true

/-- Structural induction over a child list alone (the mutual recursor's
multi-motive shape is not what the `induction` tactic expects, so this
single-motive principle is derived once and used throughout). -/
theorem FChildren.inductionOn {P : FChildren → Prop} (nil : P .nil)
    (cons : ∀ n c rest, P rest → P (.cons n c rest)) : ∀ cs, P cs
  | .nil => nil
  | .cons n c rest => cons n c rest (FChildren.inductionOn nil cons rest)

theorem lookupChild_eq_none_of_not_hasName (cs : FChildren) (a : String)
    (h : hasName cs a = false) : lookupChild cs a = none := by
  induction cs using FChildren.inductionOn with
  | nil => rfl
  | cons n c rest ih =>
    unfold hasName at h
    rcases (Bool.or_eq_false_iff).mp h with ⟨h1, h2⟩
    unfold lookupChild
    rw [if_neg (by simpa using h1)]
    exact ih h2

theorem wfChildren_parts (n : String) (c : FNode) (rest : FChildren)
    (h : wfChildren (.cons n c rest) = true) :
    hasName rest n = false ∧ wfChildren rest = true ∧ wfNode c = true := by
  cases c with
  | file sz =>
    unfold wfChildren at h
    rcases (Bool.and_eq_true _ _).mp h with ⟨h1, h2⟩
    exact ⟨by simpa using h1, h2, rfl⟩
  | symlink tg =>
    unfold wfChildren at h
    rcases (Bool.and_eq_true _ _).mp h with ⟨h1, h2⟩
    exact ⟨by simpa using h1, h2, rfl⟩
  | dir r cs =>
    unfold wfChildren at h
    rcases (Bool.and_eq_true _ _).mp h with ⟨h12, h3⟩
    rcases (Bool.and_eq_true _ _).mp h12 with ⟨h1, h2⟩
    exact ⟨by simpa using h1, h3, h2⟩

theorem wfNode_of_lookupChild (cs : FChildren) (a : String) (c : FNode)
    (hwf : wfChildren cs = true) (hl : lookupChild cs a = some c) : wfNode c = true := by
  induction cs using FChildren.inductionOn with
  | nil => exact Option.noConfusion hl
  | cons n c0 rest ih =>
    rcases wfChildren_parts n c0 rest hwf with ⟨_, hrest, hc0⟩
    unfold lookupChild at hl
    by_cases hn : n = a
    · rw [if_pos hn] at hl
      injection hl with hl
      rw [← hl]
      exact hc0
    · rw [if_neg hn] at hl
      exact ih hrest hl

theorem lookupChild_removeChild_ne (cs : FChildren) (a b : String) (h : b ≠ a) :
    lookupChild (removeChild a cs) b = lookupChild cs b := by
  induction cs using FChildren.inductionOn with
  | nil => rfl
  | cons n c rest ih =>
    unfold removeChild
    by_cases hn : n = a
    · rw [if_pos hn]
      have hstep : lookupChild (FChildren.cons n c rest) b =
          if n = b then some c else lookupChild rest b := rfl
      rw [hstep, if_neg (fun hc : n = b => h (hc.symm.trans hn))]
    · rw [if_neg hn]
      unfold lookupChild
      by_cases hb : n = b
      · rw [if_pos hb, if_pos hb]
      · rw [if_neg hb, if_neg hb]
        exact ih

theorem lookupChild_removeChild_self (cs : FChildren) (a : String)
    (hwf : wfChildren cs = true) : lookupChild (removeChild a cs) a = none := by
  induction cs using FChildren.inductionOn with
  | nil => rfl
  | cons n c rest ih =>
    rcases wfChildren_parts n c rest hwf with ⟨hnm, hrest, _⟩
    unfold removeChild
    by_cases hn : n = a
    · rw [if_pos hn]
      rw [hn] at hnm
      exact lookupChild_eq_none_of_not_hasName rest a hnm
    · rw [if_neg hn]
      unfold lookupChild
      rw [if_neg hn]
      exact ih hrest

theorem lookupChild_mapAt_self (f : FNode → FNode) (a : String) (cs : FChildren) :
    lookupChild (mapAt f a cs) a = (lookupChild cs a).map f := by
  induction cs using FChildren.inductionOn with
  | nil => rfl
  | cons n c rest ih =>
    unfold mapAt
    by_cases hn : n = a
    · rw [if_pos hn]
      unfold lookupChild
      rw [if_pos hn, if_pos hn]
      rfl
    · rw [if_neg hn]
      unfold lookupChild
      rw [if_neg hn, if_neg hn]
      exact ih

theorem lookupChild_mapAt_ne (f : FNode → FNode) (a b : String) (cs : FChildren)
    (h : b ≠ a) : lookupChild (mapAt f a cs) b = lookupChild cs b := by
  induction cs using FChildren.inductionOn with
  | nil => rfl
  | cons n c rest ih =>
    unfold mapAt
    by_cases hn : n = a
    · rw [if_pos hn]
      unfold lookupChild
      by_cases hb : n = b
      · exact absurd (hb.symm.trans hn) h
      · rw [if_neg hb, if_neg hb]
        exact ih
    · rw [if_neg hn]
      unfold lookupChild
      by_cases hb : n = b
      · rw [if_pos hb, if_pos hb]
      · rw [if_neg hb, if_neg hb]
        exact ih

theorem hasName_removeChild (a b : String) (cs : FChildren)
    (h : hasName (removeChild a cs) b = true) : hasName cs b = true := by
  induction cs using FChildren.inductionOn with
  | nil => exact h
  | cons n c rest ih =>
    unfold removeChild at h
    by_cases hn : n = a
    · rw [if_pos hn] at h
      unfold hasName
      rw [h]
      simp
    · rw [if_neg hn] at h
      unfold hasName at h ⊢
      rcases (Bool.or_eq_true _ _).mp h with h1 | h2
      · rw [h1]; simp
      · rw [ih h2]; simp

theorem hasName_mapAt (f : FNode → FNode) (a b : String) (cs : FChildren) :
    hasName (mapAt f a cs) b = hasName cs b := by
  induction cs using FChildren.inductionOn with
  | nil => rfl
  | cons n c rest ih =>
    unfold mapAt
    by_cases hn : n = a
    · rw [if_pos hn]
      unfold hasName
      rw [ih]
    · rw [if_neg hn]
      unfold hasName
      rw [ih]

theorem lookupPath_dir_cons (r : Bool) (cs : FChildren) (a : String) (rest : FPath) :
    lookupPath (FNode.dir r cs) (a :: rest) =
      match lookupChild cs a with
      | some c => lookupPath c rest
      | none => none := rfl

theorem lookupPath_dir_cons_none (r : Bool) (cs : FChildren) (a : String) (rest : FPath)
    (h : lookupChild cs a = none) : lookupPath (FNode.dir r cs) (a :: rest) = none := by
  rw [lookupPath_dir_cons, h]

theorem lookupPath_dir_cons_some (r : Bool) (cs : FChildren) (a : String) (rest : FPath)
    (c : FNode) (h : lookupChild cs a = some c) :
    lookupPath (FNode.dir r cs) (a :: rest) = lookupPath c rest := by
  rw [lookupPath_dir_cons, h]

theorem wfChildren_cons_iff (n : String) (c : FNode) (rest : FChildren) :
    wfChildren (.cons n c rest) = true ↔
      hasName rest n = false ∧ wfChildren rest = true ∧ wfNode c = true := by
  constructor
  · exact wfChildren_parts n c rest
  · rintro ⟨h1, h2, h3⟩
    cases c with
    | file sz => unfold wfChildren; rw [h1, h2]; rfl
    | symlink tg => unfold wfChildren; rw [h1, h2]; rfl
    | dir r cs =>
      unfold wfChildren
      rw [h1, h2]
      have : wfChildren cs = true := h3
      rw [this]
      rfl

theorem wfChildren_removeChild (a : String) (cs : FChildren)
    (hwf : wfChildren cs = true) : wfChildren (removeChild a cs) = true := by
  induction cs using FChildren.inductionOn with
  | nil => rfl
  | cons n c rest ih =>
    rcases wfChildren_parts n c rest hwf with ⟨hnm, hrest, hc⟩
    unfold removeChild
    by_cases hn : n = a
    · rw [if_pos hn]
      exact hrest
    · rw [if_neg hn]
      refine (wfChildren_cons_iff n c (removeChild a rest)).mpr ⟨?_, ih hrest, hc⟩
      cases hh : hasName (removeChild a rest) n with
      | false => rfl
      | true => rw [hasName_removeChild a n rest hh] at hnm; exact Bool.noConfusion hnm

theorem wfChildren_mapAt (f : FNode → FNode) (a : String) (cs : FChildren)
    (hf : ∀ c, wfNode c = true → wfNode (f c) = true)
    (hwf : wfChildren cs = true) : wfChildren (mapAt f a cs) = true := by
  induction cs using FChildren.inductionOn with
  | nil => rfl
  | cons n c rest ih =>
    rcases wfChildren_parts n c rest hwf with ⟨hnm, hrest, hc⟩
    unfold mapAt
    have hname : hasName (mapAt f a rest) n = false := by
      rw [hasName_mapAt]; exact hnm
    by_cases hn : n = a
    · rw [if_pos hn]
      exact (wfChildren_cons_iff n (f c) (mapAt f a rest)).mpr ⟨hname, ih hrest, hf c hc⟩
    · rw [if_neg hn]
      exact (wfChildren_cons_iff n c (mapAt f a rest)).mpr ⟨hname, ih hrest, hc⟩

theorem wfNode_removePath : ∀ (p : FPath) (t : FNode),
    wfNode t = true → wfNode (removePath p t) = true := by
  intro p
  induction p with
  | nil => intro t h; exact h
  | cons a rest ih =>
    intro t hwf
    cases rest with
    | nil =>
      cases t with
      | file sz => exact hwf
      | symlink tg => exact hwf
      | dir r cs =>
        show wfNode (FNode.dir r (removeChild a cs)) = true
        exact wfChildren_removeChild a cs hwf
    | cons b brest =>
      cases t with
      | file sz => exact hwf
      | symlink tg => exact hwf
      | dir r cs =>
        show wfNode (FNode.dir r (mapAt (fun c => removePath (b :: brest) c) a cs)) = true
        exact wfChildren_mapAt _ a cs (fun c hc => ih c hc) hwf

theorem lookupPath_removePath_self : ∀ (p : FPath) (t : FNode), p ≠ [] →
    wfNode t = true → lookupPath (removePath p t) p = none := by
  intro p
  induction p with
  | nil => intro t h _; exact absurd rfl h
  | cons a rest ih =>
    intro t _ hwf
    cases rest with
    | nil =>
      cases t with
      | file sz => rfl
      | symlink tg => rfl
      | dir r cs =>
        show lookupPath (FNode.dir r (removeChild a cs)) [a] = none
        exact lookupPath_dir_cons_none r _ a []
          (lookupChild_removeChild_self cs a hwf)
    | cons b brest =>
      cases t with
      | file sz => rfl
      | symlink tg => rfl
      | dir r cs =>
        show lookupPath
          (FNode.dir r (mapAt (fun c => removePath (b :: brest) c) a cs)) (a :: b :: brest) = none
        cases hlc : lookupChild cs a with
        | none =>
          refine lookupPath_dir_cons_none r _ a (b :: brest) ?_
          rw [lookupChild_mapAt_self, hlc]
          rfl
        | some c =>
          have hstep : lookupChild (mapAt (fun c => removePath (b :: brest) c) a cs) a =
              some (removePath (b :: brest) c) := by
            rw [lookupChild_mapAt_self, hlc]
            rfl
          rw [lookupPath_dir_cons_some r _ a (b :: brest) _ hstep]
          exact ih c (by simp) (wfNode_of_lookupChild cs a c hwf hlc)

theorem removePath_dir_single (a : String) (r : Bool) (cs : FChildren) :
    removePath [a] (FNode.dir r cs) = FNode.dir r (removeChild a cs) := rfl

theorem removePath_dir_deep (a b : String) (rest : FPath) (r : Bool) (cs : FChildren) :
    removePath (a :: b :: rest) (FNode.dir r cs) =
      FNode.dir r (mapAt (fun c => removePath (b :: rest) c) a cs) := rfl

theorem pathExists_removePath_not_under : ∀ (q p : FPath) (t : FNode),
    isAncestorOrSelf p q = false → pathExists (removePath p t) q = pathExists t q := by
  intro q
  induction q with
  | nil =>
    intro p t hps
    cases p with
    | nil => exact absurd hps (by simp [isAncestorOrSelf])
    | cons a as => cases as <;> cases t <;> rfl
  | cons b qs ihq =>
    intro p t hps
    cases p with
    | nil => exact absurd hps (by simp [isAncestorOrSelf])
    | cons a as =>
      by_cases hab : a = b
      · have hps' : isAncestorOrSelf as qs = false := by
          unfold isAncestorOrSelf at hps
          rw [if_pos hab] at hps
          exact hps
        subst hab
        cases as with
        | nil => exact absurd hps' (by simp [isAncestorOrSelf])
        | cons a2 as2 =>
          cases t with
          | file sz => rfl
          | symlink tg => rfl
          | dir r cs =>
            rw [removePath_dir_deep]
            cases hlc : lookupChild cs a with
            | none =>
              unfold pathExists
              rw [lookupPath_dir_cons_none _ _ _ _
                    (by rw [lookupChild_mapAt_self, hlc]; rfl),
                  lookupPath_dir_cons_none _ _ _ _ hlc]
            | some c =>
              unfold pathExists
              rw [lookupPath_dir_cons_some _ _ _ _ _
                    (by rw [lookupChild_mapAt_self, hlc]; rfl),
                  lookupPath_dir_cons_some _ _ _ _ _ hlc]
              exact ihq (a2 :: as2) c hps'
      · cases as with
        | nil =>
          cases t with
          | file sz => rfl
          | symlink tg => rfl
          | dir r cs =>
            rw [removePath_dir_single]
            unfold pathExists
            rw [lookupPath_dir_cons, lookupPath_dir_cons,
                lookupChild_removeChild_ne cs a b (fun h => hab h.symm)]
        | cons a2 as2 =>
          cases t with
          | file sz => rfl
          | symlink tg => rfl
          | dir r cs =>
            rw [removePath_dir_deep]
            unfold pathExists
            rw [lookupPath_dir_cons, lookupPath_dir_cons,
                lookupChild_mapAt_ne _ a b cs (fun h => hab h.symm)]

theorem pathExists_removePath_mono : ∀ (q p : FPath) (t : FNode), wfNode t = true →
    pathExists (removePath p t) q = true → pathExists t q = true := by
  intro q
  induction q with
  | nil =>
    intro p t _ _
    cases t <;> rfl
  | cons b qs ihq =>
    intro p t hwf h
    cases p with
    | nil => exact h
    | cons a as =>
      by_cases hab : a = b
      · subst hab
        cases as with
        | nil =>
          cases t with
          | file sz => exact h
          | symlink tg => exact h
          | dir r cs =>
            rw [removePath_dir_single] at h
            unfold pathExists at h
            rw [lookupPath_dir_cons_none _ _ _ _
                  (lookupChild_removeChild_self cs a hwf)] at h
            exact absurd h (by simp)
        | cons a2 as2 =>
          cases t with
          | file sz => exact h
          | symlink tg => exact h
          | dir r cs =>
            rw [removePath_dir_deep] at h
            cases hlc : lookupChild cs a with
            | none =>
              unfold pathExists at h
              rw [lookupPath_dir_cons_none _ _ _ _
                    (by rw [lookupChild_mapAt_self, hlc]; rfl)] at h
              exact absurd h (by simp)
            | some c =>
              unfold pathExists at h ⊢
              rw [lookupPath_dir_cons_some _ _ _ _ _
                    (by rw [lookupChild_mapAt_self, hlc]; rfl)] at h
              rw [lookupPath_dir_cons_some _ _ _ _ _ hlc]
              exact ihq (a2 :: as2) c (wfNode_of_lookupChild cs a c hwf hlc) h
      · cases as with
        | nil =>
          cases t with
          | file sz => exact h
          | symlink tg => exact h
          | dir r cs =>
            rw [removePath_dir_single] at h
            unfold pathExists at h ⊢
            rw [lookupPath_dir_cons,
                lookupChild_removeChild_ne cs a b (fun hh => hab hh.symm)] at h
            rw [lookupPath_dir_cons]
            exact h
        | cons a2 as2 =>
          cases t with
          | file sz => exact h
          | symlink tg => exact h
          | dir r cs =>
            rw [removePath_dir_deep] at h
            unfold pathExists at h ⊢
            rw [lookupPath_dir_cons,
                lookupChild_mapAt_ne _ a b cs (fun hh => hab hh.symm)] at h
            rw [lookupPath_dir_cons]
            exact h

/-! ## Lemmas about the deletion operations -/

theorem lookupPath_nil (t : FNode) : lookupPath t [] = some t := by
  cases t <;> rfl

theorem deleteLoop_cons_some (k : Nat) (w : World) (m : Material) (rest : List Material)
    (w2 : World) (h : rmtree w m.path = some w2) :
    deleteLoop (k, w) (m :: rest) = deleteLoop (k + 1, w2) rest := by
  show (match rmtree w m.path with
    | some w2 => deleteLoop (k + 1, w2) rest
    | none => deleteLoop (k, w) rest) = _
  rw [h]

theorem deleteLoop_cons_none (k : Nat) (w : World) (m : Material) (rest : List Material)
    (h : rmtree w m.path = none) :
    deleteLoop (k, w) (m :: rest) = deleteLoop (k, w) rest := by
  show (match rmtree w m.path with
    | some w2 => deleteLoop (k + 1, w2) rest
    | none => deleteLoop (k, w) rest) = _
  rw [h]

theorem delete_material_declined (w : World) (m : Material) :
    delete_material w m false false = (false, w) := rfl

theorem delete_material_forced (w : World) (m : Material) (force : Bool) :
    delete_material w m force true =
      (match rmtree w m.path with
       | some w' => (true, w')
       | none => (false, w)) := by
  cases force <;> rfl

theorem interactiveAllLoop_cons (resp : String → Bool) (k : Nat) (w : World)
    (m : Material) (rest : List Material) :
    interactiveAllLoop resp (k, w) (m :: rest) =
      interactiveAllLoop resp
        (if (delete_material w m false (resp m.name)).1 then k + 1 else k,
         (delete_material w m false (resp m.name)).2) rest := rfl

theorem lookupChild_isSome_of_mem (cs : FChildren) (n : String) (c : FNode)
    (h : (n, c) ∈ childrenToList cs) : ∃ c', lookupChild cs n = some c' := by
  induction cs using FChildren.inductionOn with
  | nil => simp [childrenToList] at h
  | cons m c0 rest ih =>
    unfold childrenToList at h
    rcases List.mem_cons.mp h with h1 | h2
    · have hm : m = n := by
        have := congrArg Prod.fst h1
        exact this.symm
      exact ⟨c0, by unfold lookupChild; rw [if_pos hm]⟩
    · by_cases hm : m = n
      · exact ⟨c0, by unfold lookupChild; rw [if_pos hm]⟩
      · rcases ih h2 with ⟨c', hc'⟩
        exact ⟨c', by unfold lookupChild; rw [if_neg hm]; exact hc'⟩

theorem exists_of_mem_list_materials (w : World) (m : Material)
    (h : m ∈ list_materials w) : pathExists w.root m.path = true ∧ m.path ≠ [] := by
  rcases List.mem_flatMap.mp h with ⟨d, hd, hmd⟩
  cases hl : lookupPath w.root d.1 with
  | none => unfold entriesOfRoot at hmd; rw [hl] at hmd; simp at hmd
  | some t =>
    cases t with
    | file sz => unfold entriesOfRoot at hmd; rw [hl] at hmd; simp at hmd
    | symlink tg => unfold entriesOfRoot at hmd; rw [hl] at hmd; simp at hmd
    | dir r cs =>
      rcases (mem_entriesOfRoot_iff w d r cs hl m).mp hmd with ⟨nc, hmem, _, _, hm⟩
      rcases lookupChild_isSome_of_mem cs nc.1 nc.2 hmem with ⟨c', hc'⟩
      constructor
      · rw [hm]
        show pathExists w.root (d.1 ++ [nc.1]) = true
        unfold pathExists
        rw [lookupPath_append, hl]
        show (lookupPath (FNode.dir r cs) [nc.1]).isSome = true
        rw [lookupPath_dir_cons_some r cs nc.1 [] c' hc', lookupPath_nil]
        rfl
      · rw [hm]; simp

theorem rmtree_some (w : World) (p : FPath) (hf : w.rmtreeFails p = false)
    (he : pathExists w.root p = true) :
    rmtree w p = some { w with root := removePath p w.root } := by
  unfold rmtree
  rw [hf, he]
  rfl

theorem rmtree_fields (w w' : World) (p : FPath) (h : rmtree w p = some w') :
    w'.root = removePath p w.root ∧ w'.cwd = w.cwd ∧ w'.home = w.home
      ∧ w'.installDir = w.installDir ∧ w'.rmtreeFails = w.rmtreeFails := by
  unfold rmtree at h
  by_cases hc : (w.rmtreeFails p || !pathExists w.root p) = true
  · rw [if_pos hc] at h; exact Option.noConfusion h
  · rw [if_neg hc] at h
    injection h with h
    rw [← h]
    exact ⟨rfl, rfl, rfl, rfl, rfl⟩

/-- Entries whose directories do not nest into one another (earlier list
entries are never ancestors of later ones) — true of any real inventory,
whose entries are children of at most two disjoint roots. -/
def sepMaterials (ms : List Material) : Prop :=
  List.Pairwise (fun m1 m2 => isAncestorOrSelf m1.path m2.path = false) ms

theorem deleteLoop_spec : ∀ (ms : List Material) (k : Nat) (w : World),
    wfNode w.root = true →
    (∀ m ∈ ms, w.rmtreeFails m.path = false) →
    (∀ m ∈ ms, pathExists w.root m.path = true) →
    (∀ m ∈ ms, m.path ≠ []) →
    sepMaterials ms →
    (deleteLoop (k, w) ms).1 = k + ms.length
    ∧ (∀ m ∈ ms, pathExists (deleteLoop (k, w) ms).2.root m.path = false)
    ∧ (deleteLoop (k, w) ms).2.rmtreeFails = w.rmtreeFails
    ∧ wfNode (deleteLoop (k, w) ms).2.root = true
    ∧ (∀ q, pathExists w.root q = false →
        pathExists (deleteLoop (k, w) ms).2.root q = false) := by
  intro ms
  induction ms with
  | nil =>
    intro k w hwf _ _ _ _
    exact ⟨rfl, by simp, rfl, hwf, fun q h => h⟩
  | cons m rest ih =>
    intro k w hwf hfails hex hnn hsep
    have hm_f : w.rmtreeFails m.path = false := hfails m (List.mem_cons_self _ _)
    have hm_e : pathExists w.root m.path = true := hex m (List.mem_cons_self _ _)
    have hrm := rmtree_some w m.path hm_f hm_e
    have hstep : deleteLoop (k, w) (m :: rest) =
        deleteLoop (k + 1, { w with root := removePath m.path w.root }) rest :=
      deleteLoop_cons_some k w m rest _ hrm
    have hpair := List.pairwise_cons.mp hsep
    have hwf2 : wfNode (removePath m.path w.root) = true :=
      wfNode_removePath m.path w.root hwf
    have hfails2 : ∀ m' ∈ rest,
        ({ w with root := removePath m.path w.root } : World).rmtreeFails m'.path = false :=
      fun m' hm' => hfails m' (List.mem_cons_of_mem _ hm')
    have hex2 : ∀ m' ∈ rest,
        pathExists ({ w with root := removePath m.path w.root } : World).root m'.path = true := by
      intro m' hm'
      show pathExists (removePath m.path w.root) m'.path = true
      rw [pathExists_removePath_not_under m'.path m.path w.root (hpair.1 m' hm')]
      exact hex m' (List.mem_cons_of_mem _ hm')
    have hnn2 : ∀ m' ∈ rest, m'.path ≠ [] := fun m' hm' => hnn m' (List.mem_cons_of_mem _ hm')
    rcases ih (k + 1) { w with root := removePath m.path w.root } hwf2 hfails2 hex2 hnn2
      hpair.2 with ⟨ih1, ih2, ih3, ih4, ih5⟩
    rw [hstep]
    refine ⟨?_, ?_, ih3, ih4, ?_⟩
    · rw [ih1]
      simp [List.length_cons]
      omega
    · intro m' hm'
      rcases List.mem_cons.mp hm' with h1 | h2
      · subst h1
        apply ih5
        show pathExists (removePath m'.path w.root) m'.path = false
        unfold pathExists
        rw [lookupPath_removePath_self m'.path w.root (hnn m' (List.mem_cons_self _ _)) hwf]
        rfl
      · exact ih2 m' h2
    · intro q hq
      apply ih5
      show pathExists (removePath m.path w.root) q = false
      cases hq2 : pathExists (removePath m.path w.root) q with
      | false => rfl
      | true =>
        have := pathExists_removePath_mono q m.path w.root hwf hq2
        rw [this] at hq
        exact Bool.noConfusion hq

theorem deleteLoop_preserves_other : ∀ (ms : List Material) (k : Nat) (w : World) (q : FPath),
    wfNode w.root = true →
    (∀ m ∈ ms, isAncestorOrSelf m.path q = false) →
    pathExists w.root q = true →
    pathExists (deleteLoop (k, w) ms).2.root q = true := by
  intro ms
  induction ms with
  | nil => intro k w q _ _ hq; exact hq
  | cons m rest ih =>
    intro k w q hwf hanc hq
    cases hrm : rmtree w m.path with
    | none =>
      have hstep : deleteLoop (k, w) (m :: rest) = deleteLoop (k, w) rest :=
        deleteLoop_cons_none k w m rest hrm
      rw [hstep]
      exact ih k w q hwf (fun m' hm' => hanc m' (List.mem_cons_of_mem _ hm')) hq
    | some w2 =>
      rcases rmtree_fields w w2 m.path hrm with ⟨hroot, _, _, _, _⟩
      have hstep : deleteLoop (k, w) (m :: rest) = deleteLoop (k + 1, w2) rest :=
        deleteLoop_cons_some k w m rest w2 hrm
      rw [hstep]
      refine ih (k + 1) w2 q ?_ (fun m' hm' => hanc m' (List.mem_cons_of_mem _ hm')) ?_
      · rw [hroot]; exact wfNode_removePath _ _ hwf
      · rw [hroot,
          pathExists_removePath_not_under q m.path w.root (hanc m (List.mem_cons_self _ _))]
        exact hq

theorem interactiveAllLoop_all_yes (resp : String → Bool) : ∀ (ms : List Material)
    (acc : Nat × World), (∀ m ∈ ms, resp m.name = true) →
    interactiveAllLoop resp acc ms = deleteLoop acc ms := by
  intro ms
  induction ms with
  | nil => intro acc _; rfl
  | cons m rest ih =>
    intro acc hresp
    have hr : resp m.name = true := hresp m (List.mem_cons_self _ _)
    have htail := fun m' hm' => hresp m' (List.mem_cons_of_mem _ hm')
    obtain ⟨k, w⟩ := acc
    rw [interactiveAllLoop_cons, hr, delete_material_forced]
    cases hrm : rmtree w m.path with
    | none =>
      rw [deleteLoop_cons_none k w m rest hrm]
      exact ih _ htail
    | some w2 =>
      rw [deleteLoop_cons_some k w m rest w2 hrm]
      exact ih _ htail

theorem interactiveAllLoop_preserves_other (resp : String → Bool) :
    ∀ (ms : List Material) (k : Nat) (w : World) (q : FPath),
    wfNode w.root = true →
    (∀ m ∈ ms, isAncestorOrSelf m.path q = false) →
    pathExists w.root q = true →
    pathExists (interactiveAllLoop resp (k, w) ms).2.root q = true := by
  intro ms
  induction ms with
  | nil => intro k w q _ _ hq; exact hq
  | cons m rest ih =>
    intro k w q hwf hanc hq
    rw [interactiveAllLoop_cons]
    cases hc : resp m.name with
    | false =>
      rw [delete_material_declined]
      exact ih k w q hwf (fun m' hm' => hanc m' (List.mem_cons_of_mem _ hm')) hq
    | true =>
      rw [delete_material_forced]
      cases hrm : rmtree w m.path with
      | none =>
        exact ih k w q hwf (fun m' hm' => hanc m' (List.mem_cons_of_mem _ hm')) hq
      | some w2 =>
        rcases rmtree_fields w w2 m.path hrm with ⟨hroot, _, _, _, _⟩
        refine ih (k + 1) w2 q ?_ (fun m' hm' => hanc m' (List.mem_cons_of_mem _ hm')) ?_
        · rw [hroot]; exact wfNode_removePath _ _ hwf
        · rw [hroot,
            pathExists_removePath_not_under q m.path w.root (hanc m (List.mem_cons_self _ _))]
          exact hq

theorem rmtree_none_of_fails (w : World) (p : FPath) (hf : w.rmtreeFails p = true) :
    rmtree w p = none := by
  unfold rmtree
  rw [hf]
  rfl

/-- Entries whose directories do not nest into one another in either
direction — true of any real inventory, whose entries are distinct immediate
children of at most two roots. -/
def sepSym (ms : List Material) : Prop :=
  List.Pairwise (fun m1 m2 => isAncestorOrSelf m1.path m2.path = false
    ∧ isAncestorOrSelf m2.path m1.path = false) ms

instance (ms : List Material) : Decidable (sepSym ms) := by
  unfold sepSym
  infer_instance

/-- The deletion loop under an arbitrary failure oracle: a failing removal is
caught and the loop continues — the success count is the number of entries
whose removal does not raise, every non-failing entry's subtree is removed,
and every failing entry survives untouched. -/
theorem deleteLoop_spec_fail : ∀ (ms : List Material) (k : Nat) (w : World),
    wfNode w.root = true →
    (∀ m ∈ ms, pathExists w.root m.path = true) →
    (∀ m ∈ ms, m.path ≠ []) →
    sepSym ms →
    (deleteLoop (k, w) ms).1 =
      k + (ms.filter (fun m => !w.rmtreeFails m.path)).length
    ∧ (∀ m ∈ ms, w.rmtreeFails m.path = false →
        pathExists (deleteLoop (k, w) ms).2.root m.path = false)
    ∧ (∀ m ∈ ms, w.rmtreeFails m.path = true →
        pathExists (deleteLoop (k, w) ms).2.root m.path = true)
    ∧ (deleteLoop (k, w) ms).2.rmtreeFails = w.rmtreeFails
    ∧ wfNode (deleteLoop (k, w) ms).2.root = true
    ∧ (∀ q, pathExists w.root q = false →
        pathExists (deleteLoop (k, w) ms).2.root q = false) := by
  intro ms
  induction ms with
  | nil =>
    intro k w hwf _ _ _
    exact ⟨rfl, by simp, by simp, rfl, hwf, fun q h => h⟩
  | cons m rest ih =>
    intro k w hwf hex hnn hsep
    have hm_e : pathExists w.root m.path = true := hex m (List.mem_cons_self _ _)
    have hpair := List.pairwise_cons.mp hsep
    have hex2 : ∀ m' ∈ rest, pathExists w.root m'.path = true :=
      fun m' hm' => hex m' (List.mem_cons_of_mem _ hm')
    have hnn2 : ∀ m' ∈ rest, m'.path ≠ [] :=
      fun m' hm' => hnn m' (List.mem_cons_of_mem _ hm')
    cases hf : w.rmtreeFails m.path with
    | true =>
      have hstep : deleteLoop (k, w) (m :: rest) = deleteLoop (k, w) rest :=
        deleteLoop_cons_none k w m rest (rmtree_none_of_fails w m.path hf)
      rcases ih k w hwf hex2 hnn2 hpair.2 with ⟨ih1, ih2, ih3, ih4, ih5, ih6⟩
      rw [hstep]
      refine ⟨?_, ?_, ?_, ih4, ih5, ih6⟩
      · rw [ih1]
        have hfc : (m :: rest).filter (fun m' => !w.rmtreeFails m'.path)
            = rest.filter (fun m' => !w.rmtreeFails m'.path) := by
          simp [List.filter_cons, hf]
        rw [hfc]
      · intro m' hm' hf'
        rcases List.mem_cons.mp hm' with h1 | h2
        · subst h1
          rw [hf'] at hf
          exact Bool.noConfusion hf
        · exact ih2 m' h2 hf'
      · intro m' hm' hf'
        rcases List.mem_cons.mp hm' with h1 | h2
        · subst h1
          exact deleteLoop_preserves_other rest k w m'.path hwf
            (fun m'' hm'' => (hpair.1 m'' hm'').2) hm_e
        · exact ih3 m' h2 hf'
    | false =>
      have hrm := rmtree_some w m.path hf hm_e
      have hstep : deleteLoop (k, w) (m :: rest) =
          deleteLoop (k + 1, { w with root := removePath m.path w.root }) rest :=
        deleteLoop_cons_some k w m rest _ hrm
      have hwf2 : wfNode (removePath m.path w.root) = true :=
        wfNode_removePath m.path w.root hwf
      have hex2b : ∀ m' ∈ rest,
          pathExists ({ w with root := removePath m.path w.root } : World).root
            m'.path = true := by
        intro m' hm'
        show pathExists (removePath m.path w.root) m'.path = true
        rw [pathExists_removePath_not_under m'.path m.path w.root (hpair.1 m' hm').1]
        exact hex2 m' hm'
      rcases ih (k + 1) { w with root := removePath m.path w.root } hwf2 hex2b hnn2
        hpair.2 with ⟨ih1, ih2, ih3, ih4, ih5, ih6⟩
      have hproj : ({ w with root := removePath m.path w.root } : World).rmtreeFails
          = w.rmtreeFails := rfl
      rw [hproj] at ih1
      rw [hstep]
      refine ⟨?_, ?_, ?_, ih4, ih5, ?_⟩
      · rw [ih1]
        have hfc : (m :: rest).filter (fun m' => !w.rmtreeFails m'.path)
            = m :: rest.filter (fun m' => !w.rmtreeFails m'.path) := by
          simp [List.filter_cons, hf]
        rw [hfc, List.length_cons]
        omega
      · intro m' hm' hf'
        rcases List.mem_cons.mp hm' with h1 | h2
        · subst h1
          apply ih6
          show pathExists (removePath m'.path w.root) m'.path = false
          unfold pathExists
          rw [lookupPath_removePath_self m'.path w.root (hnn m' (List.mem_cons_self _ _)) hwf]
          rfl
        · exact ih2 m' h2 hf'
      · intro m' hm' hf'
        rcases List.mem_cons.mp hm' with h1 | h2
        · subst h1
          rw [hf'] at hf
          exact Bool.noConfusion hf
        · exact ih3 m' h2 hf'
      · intro q hq
        apply ih6
        show pathExists (removePath m.path w.root) q = false
        cases hq2 : pathExists (removePath m.path w.root) q with
        | false => rfl
        | true =>
          have := pathExists_removePath_mono q m.path w.root hwf hq2
          rw [this] at hq
          exact Bool.noConfusion hq

theorem cleanup_all_eq (w : World) (force : Bool) (phrase : String) :
    cleanup_all w force phrase =
      (if (list_materials w).isEmpty then ((.nothing, w) : AllResult × World)
       else if !force && phrase ≠ "DELETE ALL" then (.cancelled, w)
       else (.done (deleteLoop (0, w) (list_materials w)).1 (list_materials w).length,
             (deleteLoop (0, w) (list_materials w)).2)) := rfl

theorem interactive_delete_all_eq (w : World) (phrase : String) (resp : String → Bool) :
    interactive_delete_all w phrase resp =
      (if (list_materials w).isEmpty then ((.nothing, w) : AllResult × World)
       else if phrase ≠ "DELETE ALL" then (.cancelled, w)
       else (.done (interactiveAllLoop resp (0, w) (list_materials w)).1
              (list_materials w).length,
             (interactiveAllLoop resp (0, w) (list_materials w)).2)) := rfl

/-- Claim C2 (amended): for the `--all` entry point (`cleanup_all`), exactly
as claimed — a non-matching phrase cancels the batch with zero deletions and
leaves the world unchanged; on the exact phrase `DELETE ALL`, each entry
present at the start is removed directly with no per-entry prompt, an entry
whose removal raises is tolerated rather than fatal — the loop continues,
every other entry is still removed, the failing entry survives — and a
completion count (the number of successful removals) out of the requested
total is reported.  The interactive `all` branch passes the same phrase gate
but then confirms each entry individually (`delete_material` with
`force=False`), so an entry whose own prompt is declined survives; when every
per-entry prompt is affirmed it coincides with `cleanup_all`, removal
failures included. -/
theorem claim_C2 :
    (∀ (w : World) (phrase : String), phrase ≠ "DELETE ALL" →
      (cleanup_all w false phrase).2 = w)
    ∧ (∀ w : World, wfNode w.root = true →
        (∀ m ∈ list_materials w, w.rmtreeFails m.path = false) →
        sepMaterials (list_materials w) →
        list_materials w ≠ [] →
        (cleanup_all w false "DELETE ALL").1 =
          .done (list_materials w).length (list_materials w).length
        ∧ ∀ m ∈ list_materials w,
            pathExists (cleanup_all w false "DELETE ALL").2.root m.path = false)
    ∧ (∀ w : World, wfNode w.root = true →
        sepSym (list_materials w) →
        list_materials w ≠ [] →
        (cleanup_all w false "DELETE ALL").1 =
          .done ((list_materials w).filter
              (fun m => !w.rmtreeFails m.path)).length
            (list_materials w).length
        ∧ (∀ m ∈ list_materials w, w.rmtreeFails m.path = false →
            pathExists (cleanup_all w false "DELETE ALL").2.root m.path = false)
        ∧ (∀ m ∈ list_materials w, w.rmtreeFails m.path = true →
            pathExists (cleanup_all w false "DELETE ALL").2.root m.path = true))
    ∧ (∀ (w : World) (phrase : String) (resp : String → Bool), phrase ≠ "DELETE ALL" →
        (interactive_delete_all w phrase resp).2 = w)
    ∧ (∀ (w : World) (resp : String → Bool), wfNode w.root = true →
        (∀ m ∈ list_materials w, w.rmtreeFails m.path = false) →
        (∀ m ∈ list_materials w, resp m.name = true) →
        sepMaterials (list_materials w) →
        list_materials w ≠ [] →
        (interactive_delete_all w "DELETE ALL" resp).1 =
          .done (list_materials w).length (list_materials w).length
        ∧ ∀ m ∈ list_materials w,
            pathExists (interactive_delete_all w "DELETE ALL" resp).2.root m.path = false)
    ∧ (∀ (w : World) (resp : String → Bool),
        (∀ m ∈ list_materials w, resp m.name = true) →
        interactive_delete_all w "DELETE ALL" resp =
          cleanup_all w false "DELETE ALL") := by
  have hfalse : ∀ w : World, (list_materials w ≠ []) →
      (list_materials w).isEmpty = false := by
    intro w hne
    cases hl : list_materials w with
    | nil => exact absurd hl hne
    | cons a l => rfl
  have hphrase : (!false && decide ("DELETE ALL" ≠ "DELETE ALL")) = false := by decide
  refine ⟨?_, ?_, ?_, ?_, ?_, ?_⟩
  · intro w phrase hph
    rw [cleanup_all_eq]
    by_cases he : (list_materials w).isEmpty = true
    · rw [if_pos he]
    · rw [if_neg he]
      have hcond : (!false && decide (phrase ≠ "DELETE ALL")) = true := by
        simp [hph]
      rw [hcond]
      rfl
  · intro w hwf hfails hsep hne
    have hex := fun m hm => (exists_of_mem_list_materials w m hm).1
    have hnn := fun m hm => (exists_of_mem_list_materials w m hm).2
    rcases deleteLoop_spec (list_materials w) 0 w hwf hfails hex hnn hsep with
      ⟨h1, h2, _, _, _⟩
    rw [cleanup_all_eq, hfalse w hne, hphrase]
    simp only [Bool.false_eq_true, if_false]
    refine ⟨?_, h2⟩
    rw [h1]
    rw [Nat.zero_add]
  · intro w hwf hsep hne
    have hex := fun m hm => (exists_of_mem_list_materials w m hm).1
    have hnn := fun m hm => (exists_of_mem_list_materials w m hm).2
    rcases deleteLoop_spec_fail (list_materials w) 0 w hwf hex hnn hsep with
      ⟨h1, h2, h3, _, _, _⟩
    rw [cleanup_all_eq, hfalse w hne, hphrase]
    simp only [Bool.false_eq_true, if_false]
    refine ⟨?_, h2, h3⟩
    rw [h1]
    rw [Nat.zero_add]
  · intro w phrase resp hph
    rw [interactive_delete_all_eq]
    by_cases he : (list_materials w).isEmpty = true
    · rw [if_pos he]
    · rw [if_neg he, if_pos hph]
  · intro w resp hwf hfails hresp hsep hne
    have hex := fun m hm => (exists_of_mem_list_materials w m hm).1
    have hnn := fun m hm => (exists_of_mem_list_materials w m hm).2
    rcases deleteLoop_spec (list_materials w) 0 w hwf hfails hex hnn hsep with
      ⟨h1, h2, _, _, _⟩
    have hyes := interactiveAllLoop_all_yes resp (list_materials w) (0, w) hresp
    rw [interactive_delete_all_eq, hfalse w hne]
    simp only [Bool.false_eq_true, if_false]
    rw [if_neg (fun h : ("DELETE ALL" : String) ≠ "DELETE ALL" => h rfl)]
    rw [hyes]
    refine ⟨?_, h2⟩
    rw [h1]
    rw [Nat.zero_add]
  · intro w resp hresp
    have hyes := interactiveAllLoop_all_yes resp (list_materials w) (0, w) hresp
    rw [interactive_delete_all_eq, cleanup_all_eq]
    by_cases he : (list_materials w).isEmpty = true
    · rw [if_pos he, if_pos he]
    · rw [if_neg he, if_neg he, hphrase]
      simp only [Bool.false_eq_true, if_false]
      rw [if_neg (fun h : ("DELETE ALL" : String) ≠ "DELETE ALL" => h rfl)]
      rw [hyes]

instance (ms : List Material) : Decidable (sepMaterials ms) := by
  unfold sepMaterials
  infer_instance

/-- A world whose single inventory entry is `alpha` in the global root. -/
def C2world : World :=
  ⟨.dir true (.cons "home" (.dir true (.cons "u" (.dir true
      (.cons "skill-materials" (.dir true
        (.cons "alpha" (.dir true (.cons "f" (.file 10) .nil)) .nil)) .nil)) .nil)) .nil),
   ["home", "u"], ["home", "u"], [], fun _ => false⟩

/-- Counterexample to C2 as claimed: in the interactive `all` branch, after
typing the exact phrase `DELETE ALL`, each entry still gets its own prompt —
declining it leaves the entry undeleted, so the batch completes 0 of 1 and
the inventory is unchanged. -/
theorem claim_C2_counterexample :
    (list_materials C2world).length = 1
    ∧ (interactive_delete_all C2world "DELETE ALL" (fun _ => false)).1 = .done 0 1
    ∧ list_materials (interactive_delete_all C2world "DELETE ALL" (fun _ => false)).2 =
        list_materials C2world := by decide

/-- A world with two inventory entries in the global root. -/
def C2witWorld : World :=
  ⟨.dir true (.cons "home" (.dir true (.cons "u" (.dir true
      (.cons "skill-materials" (.dir true
        (.cons "alpha" (.dir true (.cons "f" (.file 10) .nil))
        (.cons "beta" (.dir true (.cons "g" (.file 20) .nil)) .nil))) .nil)) .nil)) .nil),
   ["home", "u"], ["home", "u"], [], fun _ => false⟩

/-- The same two-entry world, with a removal oracle that raises exactly on
the first entry `alpha`. -/
def C2failWorld : World :=
  ⟨.dir true (.cons "home" (.dir true (.cons "u" (.dir true
      (.cons "skill-materials" (.dir true
        (.cons "alpha" (.dir true (.cons "f" (.file 10) .nil))
        (.cons "beta" (.dir true (.cons "g" (.file 20) .nil)) .nil))) .nil)) .nil)) .nil),
   ["home", "u"], ["home", "u"], [],
   fun p => decide (p = ["home", "u", "skill-materials", "alpha"])⟩

/-- Witness for the amended C2 at concrete worlds, including a batch in which
one of the two removals raises: the batch is not aborted (the other entry is
still removed, the failing one survives) and the report is 1 completed out of
2 requested. -/
theorem claim_C2_witness :
    (cleanup_all C2witWorld false "nope").2 = C2witWorld
    ∧ ((cleanup_all C2witWorld false "DELETE ALL").1 =
        .done (list_materials C2witWorld).length (list_materials C2witWorld).length
      ∧ ∀ m ∈ list_materials C2witWorld,
          pathExists (cleanup_all C2witWorld false "DELETE ALL").2.root m.path = false)
    ∧ ((interactive_delete_all C2witWorld "DELETE ALL" (fun _ => true)).1 =
        .done (list_materials C2witWorld).length (list_materials C2witWorld).length
      ∧ ∀ m ∈ list_materials C2witWorld,
          pathExists
            (interactive_delete_all C2witWorld "DELETE ALL" (fun _ => true)).2.root
            m.path = false)
    ∧ ((cleanup_all C2failWorld false "DELETE ALL").1 = .done 1 2
      ∧ pathExists (cleanup_all C2failWorld false "DELETE ALL").2.root
          ["home", "u", "skill-materials", "beta"] = false
      ∧ pathExists (cleanup_all C2failWorld false "DELETE ALL").2.root
          ["home", "u", "skill-materials", "alpha"] = true)
    ∧ interactive_delete_all C2failWorld "DELETE ALL" (fun _ => true) =
        cleanup_all C2failWorld false "DELETE ALL" :=
  ⟨claim_C2.1 C2witWorld "nope" (by decide),
   claim_C2.2.1 C2witWorld (by decide) (by decide) (by decide) (by decide),
   claim_C2.2.2.2.2.1 C2witWorld (fun _ => true) (by decide) (by decide) (fun _ _ => rfl)
     (by decide) (by decide),
   ⟨(claim_C2.2.2.1 C2failWorld (by decide) (by decide) (by decide)).1,
    (claim_C2.2.2.1 C2failWorld (by decide) (by decide) (by decide)).2.1
      ⟨"beta", ["home", "u", "skill-materials", "beta"], 20, "global"⟩
      (by decide) (by decide),
    (claim_C2.2.2.1 C2failWorld (by decide) (by decide) (by decide)).2.2
      ⟨"alpha", ["home", "u", "skill-materials", "alpha"], 10, "global"⟩
      (by decide) (by decide)⟩,
   claim_C2.2.2.2.2.2 C2failWorld (fun _ => true) (fun _ _ => rfl)⟩

/-- Claim C3: `cleanup_specific` searches the candidate roots in order and
acts on the first root containing the name — when both the project root and
the global root contain an entry named `x`, only the project instance is
removed (the final tree is exactly the original with that one subtree
removed; the global instance's existence is untouched); when no searched root
contains the name, the operation reports not-found carrying the full list of
searched roots and leaves the world unchanged. -/
theorem claim_C3 :
    (∀ (w : World) (name : String) (pr : FPath),
      wfNode w.root = true →
      find_project_root w none = some pr →
      pathExists w.root (projectMaterialsPath pr) = true →
      pathExists w.root (globalMaterialsPath w) = true →
      pathExists w.root (projectMaterialsPath pr ++ [name]) = true →
      w.rmtreeFails (projectMaterialsPath pr ++ [name]) = false →
      isAncestorOrSelf (projectMaterialsPath pr ++ [name])
        (globalMaterialsPath w ++ [name]) = false →
      (cleanup_specific w name true true).1 =
        .deleted ⟨name, projectMaterialsPath pr ++ [name],
          sizeAt w (projectMaterialsPath pr ++ [name]), "project"⟩
      ∧ (cleanup_specific w name true true).2.root =
          removePath (projectMaterialsPath pr ++ [name]) w.root
      ∧ pathExists (cleanup_specific w name true true).2.root
          (globalMaterialsPath w ++ [name]) =
          pathExists w.root (globalMaterialsPath w ++ [name])
      ∧ pathExists (cleanup_specific w name true true).2.root
          (projectMaterialsPath pr ++ [name]) = false)
    ∧ (∀ (w : World) (name : String) (force confirmResp : Bool),
        (∀ d ∈ searchedRoots w, pathExists w.root (d.1 ++ [name]) = false) →
        cleanup_specific w name force confirmResp = (.notFound (searchedRoots w), w)) := by
  constructor
  · intro w name pr hwf hfp hpe hge hpx hfail hsep
    have hdirs : searchedRoots w =
        [(projectMaterialsPath pr, "project"), (globalMaterialsPath w, "global")] := by
      unfold searchedRoots get_materials_dirs projRootList globRootList
      rw [hfp]
      dsimp only
      rw [if_pos hpe, if_pos hge]
      rfl
    have hfind : (searchedRoots w).find?
        (fun d => pathExists w.root (d.1 ++ [name])) =
        some (projectMaterialsPath pr, "project") := by
      rw [hdirs]
      exact List.find?_cons_of_pos _ hpx
    have hres : cleanup_specific w name true true =
        (.deleted ⟨name, projectMaterialsPath pr ++ [name],
           sizeAt w (projectMaterialsPath pr ++ [name]), "project"⟩,
         { w with root := removePath (projectMaterialsPath pr ++ [name]) w.root }) := by
      unfold cleanup_specific
      dsimp only
      rw [hfind]
      dsimp only
      rw [rmtree_some w _ hfail hpx]
      rfl
    rw [hres]
    refine ⟨rfl, rfl, ?_, ?_⟩
    · exact pathExists_removePath_not_under _ _ _ hsep
    · show pathExists (removePath (projectMaterialsPath pr ++ [name]) w.root)
        (projectMaterialsPath pr ++ [name]) = false
      unfold pathExists
      rw [lookupPath_removePath_self _ _ (by simp) hwf]
      rfl
  · intro w name force confirmResp hall
    have hfind : (searchedRoots w).find?
        (fun d => pathExists w.root (d.1 ++ [name])) = none := by
      apply List.find?_eq_none.mpr
      intro d hd
      simp [hall d hd]
    unfold cleanup_specific
    dsimp only
    rw [hfind]

/-- A world where both roots exist and both contain an entry named `x`. -/
def C3world : World :=
  ⟨.dir true (.cons "home" (.dir true
      (.cons "u" (.dir true
        (.cons ".git" (.dir true .nil)
        (.cons ".claude" (.dir true
          (.cons "temp-materials" (.dir true
            (.cons "x" (.dir true (.cons "f" (.file 5) .nil)) .nil)) .nil))
        (.cons "skill-materials" (.dir true
          (.cons "x" (.dir true (.cons "g" (.file 7) .nil)) .nil)) .nil)))) .nil)) .nil),
   ["home", "u"], ["home", "u"], [], fun _ => false⟩

/-- Witness for C3 at a concrete world in which both roots contain `x`: only
the project instance is deleted, the global one survives. -/
theorem claim_C3_witness :
    (cleanup_specific C3world "x" true true).1 =
      .deleted ⟨"x", projectMaterialsPath ["home", "u"] ++ ["x"],
        sizeAt C3world (projectMaterialsPath ["home", "u"] ++ ["x"]), "project"⟩
    ∧ (cleanup_specific C3world "x" true true).2.root =
        removePath (projectMaterialsPath ["home", "u"] ++ ["x"]) C3world.root
    ∧ pathExists (cleanup_specific C3world "x" true true).2.root
        (globalMaterialsPath C3world ++ ["x"]) =
        pathExists C3world.root (globalMaterialsPath C3world ++ ["x"])
    ∧ pathExists (cleanup_specific C3world "x" true true).2.root
        (projectMaterialsPath ["home", "u"] ++ ["x"]) = false :=
  claim_C3.1 C3world "x" ["home", "u"] (by decide) (by decide) (by decide) (by decide)
    (by decide) rfl (by decide)

/-- Claim C4 (amended): entries whose name starts with the hidden marker are
excluded from the inventory, hence from every flow that operates on the
inventory — listing, the bulk `--all` deletion and the interactive `all`
branch never touch a directory that is not under some inventory entry.
However, `cleanup_specific` (deleteByName) applies no hidden-name filter: any
name found in the first searched root — a hidden one included — is deleted. -/
theorem claim_C4 :
    (∀ (w : World) (m : Material), m ∈ list_materials w → startsWithDot m.name = false)
    ∧ (∀ (w : World) (force : Bool) (phrase : String) (q : FPath),
        wfNode w.root = true →
        (∀ m ∈ list_materials w, isAncestorOrSelf m.path q = false) →
        pathExists w.root q = true →
        pathExists (cleanup_all w force phrase).2.root q = true)
    ∧ (∀ (w : World) (phrase : String) (resp : String → Bool) (q : FPath),
        wfNode w.root = true →
        (∀ m ∈ list_materials w, isAncestorOrSelf m.path q = false) →
        pathExists w.root q = true →
        pathExists (interactive_delete_all w phrase resp).2.root q = true)
    ∧ (∀ (w : World) (name : String) (c : Bool) (mdir : FPath) (mode : String),
        (searchedRoots w).find? (fun d => pathExists w.root (d.1 ++ [name])) =
          some (mdir, mode) →
        w.rmtreeFails (mdir ++ [name]) = false →
        (cleanup_specific w name true c).1 =
          .deleted ⟨name, mdir ++ [name], sizeAt w (mdir ++ [name]), mode⟩) := by
  refine ⟨?_, ?_, ?_, ?_⟩
  · intro w m hm
    rcases List.mem_flatMap.mp hm with ⟨d, _, hmd⟩
    exact (shape_of_mem_entriesOfRoot w d m hmd).2.1
  · intro w force phrase q hwf hanc hq
    rw [cleanup_all_eq]
    by_cases he : (list_materials w).isEmpty = true
    · rw [if_pos he]; exact hq
    · rw [if_neg he]
      by_cases hc : (!force && decide (phrase ≠ "DELETE ALL")) = true
      · rw [if_pos hc]; exact hq
      · rw [if_neg hc]
        exact deleteLoop_preserves_other (list_materials w) 0 w q hwf hanc hq
  · intro w phrase resp q hwf hanc hq
    rw [interactive_delete_all_eq]
    by_cases he : (list_materials w).isEmpty = true
    · rw [if_pos he]; exact hq
    · rw [if_neg he]
      by_cases hc : phrase ≠ "DELETE ALL"
      · rw [if_pos hc]; exact hq
      · rw [if_neg hc]
        exact interactiveAllLoop_preserves_other resp (list_materials w) 0 w q hwf hanc hq
  · intro w name c mdir mode hfind hfail
    have hpx : pathExists w.root (mdir ++ [name]) = true := by
      have := List.find?_some hfind
      exact this
    have hres : cleanup_specific w name true c =
        (.deleted ⟨name, mdir ++ [name], sizeAt w (mdir ++ [name]), mode⟩,
         { w with root := removePath (mdir ++ [name]) w.root }) := by
      unfold cleanup_specific
      dsimp only
      rw [hfind]
      dsimp only
      rw [rmtree_some w _ hfail hpx]
      rfl
    rw [hres]

/-- A world whose global root holds a hidden entry `.secret` (3 bytes) and a
visible entry `visible`. -/
def C4world : World :=
  ⟨.dir true (.cons "home" (.dir true (.cons "u" (.dir true
      (.cons "skill-materials" (.dir true
        (.cons ".secret" (.dir true (.cons "s" (.file 3) .nil))
        (.cons "visible" (.dir true .nil) .nil))) .nil)) .nil)) .nil),
   ["home", "u"], ["home", "u"], [], fun _ => false⟩

/-- Counterexample to C4 as claimed: the hidden entry `.secret` never appears
in the inventory, yet `cleanup_specific` given its exact name finds it and
deletes it — so "never deleted by any cleanup operation, including
deleteByName" is false. -/
theorem claim_C4_counterexample :
    (list_materials C4world).map Material.name = ["visible"]
    ∧ (cleanup_specific C4world ".secret" true true).1 =
        .deleted ⟨".secret", ["home", "u", "skill-materials", ".secret"], 3, "global"⟩
    ∧ pathExists (cleanup_specific C4world ".secret" true true).2.root
        ["home", "u", "skill-materials", ".secret"] = false := by decide

/-- A world whose global root holds a visible entry `mat` and a hidden entry
`.keep`. -/
def C4witWorld : World :=
  ⟨.dir true (.cons "home" (.dir true (.cons "u" (.dir true
      (.cons "skill-materials" (.dir true
        (.cons ".keep" (.dir true (.cons "k" (.file 1) .nil))
        (.cons "mat" (.dir true (.cons "f" (.file 9) .nil)) .nil))) .nil)) .nil)) .nil),
   ["home", "u"], ["home", "u"], [], fun _ => false⟩

/-- Witness for the amended C4 at a concrete world: the inventory's sole
entry is unhidden, and a forced delete-all leaves the hidden `.keep`
directory untouched. -/
theorem claim_C4_witness :
    startsWithDot (⟨"mat", ["home", "u", "skill-materials", "mat"], 9, "global"⟩ :
      Material).name = false
    ∧ pathExists (cleanup_all C4witWorld true "whatever").2.root
        ["home", "u", "skill-materials", ".keep"] = true :=
  ⟨claim_C4.1 C4witWorld ⟨"mat", ["home", "u", "skill-materials", "mat"], 9, "global"⟩
      (by decide),
   claim_C4.2.1 C4witWorld true "whatever" ["home", "u", "skill-materials", ".keep"]
      (by decide) (by decide) (by decide)⟩

/-! ## The size computation under permission failures (claim C8) -/

/-- The byte total the walk would report with every directory readable
(files only; symlinked entries are skipped either way). -/
def fullSizeChildren : FChildren → Nat
  | .nil => 0
  | .cons _ (.file sz) rest => sz + fullSizeChildren rest
  | .cons _ (.symlink _) rest => fullSizeChildren rest
  | .cons _ (.dir _ cs) rest => fullSizeChildren cs + fullSizeChildren rest

/-- `fullSizeChildren` at the node level. -/
def fullSizeNode : FNode → Nat
  | .dir _ cs => fullSizeChildren cs
  | _ => 0

/-- Every directory in the subtree is readable. -/
def allReadableChildren : FChildren → Bool
  | .nil => true
  | .cons _ (.dir r cs) rest => r && allReadableChildren cs && allReadableChildren rest
  | .cons _ _ rest => allReadableChildren rest

/-- Structural induction over a child list that also descends into nested
directories. -/
theorem FChildren.deepInduction {P : FChildren → Prop} (nil : P .nil)
    (consFile : ∀ n sz rest, P rest → P (.cons n (.file sz) rest))
    (consSym : ∀ n tg rest, P rest → P (.cons n (.symlink tg) rest))
    (consDir : ∀ n r cs rest, P cs → P rest → P (.cons n (.dir r cs) rest)) :
    ∀ cs, P cs
  | .nil => nil
  | .cons n (.file sz) rest =>
    consFile n sz rest (FChildren.deepInduction nil consFile consSym consDir rest)
  | .cons n (.symlink tg) rest =>
    consSym n tg rest (FChildren.deepInduction nil consFile consSym consDir rest)
  | .cons n (.dir r cs) rest =>
    consDir n r cs rest (FChildren.deepInduction nil consFile consSym consDir cs)
      (FChildren.deepInduction nil consFile consSym consDir rest)

theorem sizeChildren_le_full : ∀ cs : FChildren, sizeChildren cs ≤ fullSizeChildren cs := by
  intro cs
  induction cs using FChildren.deepInduction with
  | nil => exact Nat.le_refl 0
  | consFile n sz rest ih =>
    show sz + sizeChildren rest ≤ sz + fullSizeChildren rest
    exact Nat.add_le_add_left ih sz
  | consSym n tg rest ih => exact ih
  | consDir n r cs rest ihcs ihrest =>
    cases r with
    | false =>
      show sizeChildren rest ≤ fullSizeChildren cs + fullSizeChildren rest
      exact Nat.le_trans ihrest (Nat.le_add_left _ _)
    | true =>
      show sizeChildren cs + sizeChildren rest ≤ fullSizeChildren cs + fullSizeChildren rest
      exact Nat.add_le_add ihcs ihrest

theorem sizeChildren_eq_full_of_readable : ∀ cs : FChildren,
    allReadableChildren cs = true → sizeChildren cs = fullSizeChildren cs := by
  intro cs
  induction cs using FChildren.deepInduction with
  | nil => intro _; rfl
  | consFile n sz rest ih =>
    intro h
    show sz + sizeChildren rest = sz + fullSizeChildren rest
    rw [ih h]
  | consSym n tg rest ih =>
    intro h
    exact ih h
  | consDir n r cs rest ihcs ihrest =>
    intro h
    have h' : (r && allReadableChildren cs && allReadableChildren rest) = true := h
    rcases (Bool.and_eq_true _ _).mp h' with ⟨h12, h3⟩
    rcases (Bool.and_eq_true _ _).mp h12 with ⟨h1, h2⟩
    rw [h1]
    show sizeChildren cs + sizeChildren rest = fullSizeChildren cs + fullSizeChildren rest
    rw [ihcs h2, ihrest h3]

/-- Claim C8: the recursive size walk never raises — an unreadable directory
contributes the partial total `0` instead of aborting (the model's
`get_dir_size` is a total function); the total it reports is a partial byte
total, at most the fully-readable total and equal to it when every directory
in the subtree is readable; symlinked entries contribute nothing, whatever
their target; and a permission failure never aborts the enclosing listing —
the entry is still listed, with its (possibly partial) size. -/
theorem claim_C8 :
    (∀ cs : FChildren, sizeChildren cs ≤ fullSizeChildren cs)
    ∧ (∀ t : FNode, get_dir_size t ≤ fullSizeNode t)
    ∧ (∀ cs : FChildren, allReadableChildren cs = true →
        sizeChildren cs = fullSizeChildren cs)
    ∧ (∀ cs : FChildren, get_dir_size (.dir false cs) = 0)
    ∧ (∀ (n : String) (tg : FNode) (rest : FChildren),
        sizeChildren (.cons n (.symlink tg) rest) = sizeChildren rest)
    ∧ (∀ (w : World) (d : FPath × String) (r : Bool) (cs : FChildren) (nm : String)
        (c : FNode),
        d ∈ get_materials_dirs w →
        lookupPath w.root d.1 = some (.dir r cs) →
        (nm, c) ∈ childrenToList cs →
        isDirNode c = true →
        startsWithDot nm = false →
        (⟨nm, d.1 ++ [nm], get_dir_size c, d.2⟩ : Material) ∈ list_materials w) := by
  refine ⟨sizeChildren_le_full, ?_, sizeChildren_eq_full_of_readable, ?_, ?_, ?_⟩
  · intro t
    cases t with
    | file sz => exact Nat.le_refl 0
    | symlink tg => exact Nat.le_refl 0
    | dir r cs =>
      cases r with
      | false => exact Nat.zero_le _
      | true => exact sizeChildren_le_full cs
  · intro cs; rfl
  · intro n tg rest; rfl
  · intro w d r cs nm c hd hl hmem hdir hhid
    exact List.mem_flatMap.mpr
      ⟨d, hd, (mem_entriesOfRoot_iff w d r cs hl _).mpr ⟨(nm, c), hmem, hdir, hhid, rfl⟩⟩

/-- A world whose global root holds one entry `data` containing a readable
file (4 bytes), an unreadable subdirectory with a 100-byte file inside, and a
symlinked entry. -/
def C8world : World :=
  ⟨.dir true (.cons "home" (.dir true (.cons "u" (.dir true
      (.cons "skill-materials" (.dir true
        (.cons "data" (.dir true
          (.cons "a" (.file 4)
          (.cons "locked" (.dir false (.cons "big" (.file 100) .nil))
          (.cons "link" (.symlink (.file 50)) .nil)))) .nil)) .nil)) .nil)) .nil),
   ["home", "u"], ["home", "u"], [], fun _ => false⟩

/-- Witness for C8 at a concrete tree: the partial size (4) is below the full
total (104), readable trees size exactly, and the permission-degraded entry is
still listed with its partial size. -/
theorem claim_C8_witness :
    sizeChildren (.cons "a" (.file 4)
        (.cons "locked" (.dir false (.cons "big" (.file 100) .nil))
        (.cons "link" (.symlink (.file 50)) .nil))) ≤
      fullSizeChildren (.cons "a" (.file 4)
        (.cons "locked" (.dir false (.cons "big" (.file 100) .nil))
        (.cons "link" (.symlink (.file 50)) .nil)))
    ∧ sizeChildren (.cons "only" (.file 6) .nil) =
        fullSizeChildren (.cons "only" (.file 6) .nil)
    ∧ (⟨"data", ["home", "u", "skill-materials", "data"],
        get_dir_size (.dir true
          (.cons "a" (.file 4)
          (.cons "locked" (.dir false (.cons "big" (.file 100) .nil))
          (.cons "link" (.symlink (.file 50)) .nil)))), "global"⟩ : Material)
        ∈ list_materials C8world :=
  ⟨claim_C8.1 _,
   claim_C8.2.2.1 _ (by decide),
   claim_C8.2.2.2.2.2 C8world (["home", "u", "skill-materials"], "global") true _ "data" _
     (by decide) rfl (List.mem_singleton.mpr rfl) rfl (by decide)⟩
